import Mathlib

/-!
# In-memory assembly registry (`src/monodroid/jni/inmemory-assemblies.cc`)

A shallow embedding of the per-domain registry of in-memory assemblies and of
its operations, followed by the properties proved about it.

Conventions of the embedding

* A `char*` naming an assembly is a `CStr`: the characters before the
  terminating NUL (so none of them is NUL).
* A byte buffer is a `List Nat`, one element per byte.
* `unsigned int` values are natural numbers, reduced modulo `2^32` wherever the
  source does arithmetic on them.
* The backing array `entries` is a list with one slot per allocated pointer;
  a slot holds `none` while its pointer is indeterminate (never written).
* Every operation returns `Except Abort _`: `Abort.fatal` is the exit taken by
  the overflow check, `Abort.fault` is an access outside an allocation or
  through an indeterminate pointer (undefined behaviour in the source).
* The names of a bulk transfer arrive in a `jstring_array_wrapper`, a class
  that is not in the sources at hand: what its element lookup gives past the
  end of the array is a parameter of the embedding, not a choice made here.
* Allocation failure and the release of memory (`delete`) are not modelled.
-/

/-- Ways in which an operation does not return. -/
inductive Abort where
  /-- The process logs a fatal error and exits (overflow check). -/
  | fatal
  /-- An access outside an allocation or through an indeterminate pointer. -/
  | fault
deriving DecidableEq, Repr

/-- The value `UINT_MAX + 1` of a 32-bit `unsigned int`. -/
def UINT_RANGE : Nat := 2 ^ 32

/-- Increment of an `unsigned int` (`x++`). -/
def uint_incr (x : Nat) : Nat := (x + 1) % UINT_RANGE

/-- The `unsigned int` expression `x - 1`. -/
def uint_decr (x : Nat) : Nat := (x + (UINT_RANGE - 1)) % UINT_RANGE

/-- The conversion `static_cast<unsigned int>` of a non-negative `jsize`. -/
def uint_of_jsize (n : Nat) : Nat := n % UINT_RANGE

/-- The conversion `(int)x` of an `unsigned int` to a signed 32-bit `int`. -/
def int_of_uint (x : Nat) : Int :=
  if x % UINT_RANGE < 2 ^ 31 then ((x % UINT_RANGE : Nat) : Int)
  else ((x % UINT_RANGE : Nat) : Int) - (UINT_RANGE : Int)

/-- A C string: the characters before the terminating NUL. -/
structure CStr where
  chars : List Char
  nonul : ∀ c ∈ chars, c ≠ Char.ofNat 0

instance : DecidableEq CStr := fun a b =>
  if h : a.chars = b.chars then
    isTrue (by cases a; cases b; simp_all)
  else
    isFalse (fun hab => h (by rw [hab]))

/-- The libc comparison on the characters of two C strings, the end of a list
standing for the terminating NUL. -/
def strcmp_chars : List Char → List Char → Int
  | [], [] => 0
  | [], b :: _ => 0 - (b.toNat : Int)
  | a :: _, [] => (a.toNat : Int) - 0
  | a :: as, b :: bs =>
    if a = b then strcmp_chars as bs else (a.toNat : Int) - (b.toNat : Int)

/-- The libc function `strcmp`. -/
def strcmp (s1 s2 : CStr) : Int := strcmp_chars s1.chars s2.chars

/-- Modelled from the spec: `utils.strdup_new` (string utilities, not in the
sources at hand) duplicates the name string; the copy has the same
characters. -/
def strdup_new (s : CStr) : CStr := s

/-- The libc function `memcpy` on byte buffers: the first `n` bytes of `src`
written into a fresh buffer of `n` bytes; `none` when `src` is shorter. -/
def memcpy_bytes (src : List Nat) (n : Nat) : Option (List Nat) :=
  if n ≤ src.length then some (src.take n) else none

/-- A domain of the managed runtime, represented by its numeric id. -/
abbrev MonoDomain := Int

/-- The runtime function `mono_domain_get_id`. -/
def mono_domain_get_id (domain : MonoDomain) : Int := domain

/-- An assembly name descriptor, represented by the name it carries. -/
abbrev MonoAssemblyName := CStr

/-- The runtime function `mono_assembly_name_get_name`. -/
def mono_assembly_name_get_name (name : MonoAssemblyName) : CStr := name

/-- The runtime function `mono_array_new` for the byte class: a managed array
of `n` zeroed bytes. -/
def mono_array_new (n : Nat) : List Nat := List.replicate n 0

/-- The runtime function `mono_value_copy_array`: `count` elements of `src`
copied into `dest` from `dest_idx` on. A negative count, or one that exceeds
either buffer, has no defined result. -/
def mono_value_copy_array (dest : List Nat) (dest_idx : Nat) (src : List Nat)
    (count : Int) : Option (List Nat) :=
  if 0 ≤ count ∧ dest_idx + count.toNat ≤ dest.length ∧ count.toNat ≤ src.length then
    some (dest.take dest_idx ++ src.take count.toNat ++ dest.drop (dest_idx + count.toNat))
  else none

/-- Modelled from the spec: the class `jstring_array_wrapper` (of a header that
is not in the sources at hand) wraps the Java array of assembly names, the
"sequence of text" of the spec. `strings` are the C strings of its elements,
in array order. Neither the sources nor the spec say what the element lookup
gives for an index past the end of the array; that is the parameter
`past_end`: for each such index, a string or an exit without return. -/
structure jstring_array_wrapper where
  strings : List CStr
  past_end : Nat → Except Abort CStr

/-- The expression `assemblies [index].get_cstr ()`: the string of the element
at `index`, and past the end of the array whatever the wrapper gives there. -/
def jstring_array_wrapper.get_cstr_at (assemblies : jstring_array_wrapper) (index : Nat) :
    Except Abort CStr :=
  match assemblies.strings[index]? with
  | some s => .ok s
  | none => assemblies.past_end index

/-- The struct `InMemoryAssemblies::InMemoryAssemblyEntry`: the assemblies
registered for one domain, as three parallel arrays and their count. -/
structure InMemoryAssemblyEntry where
  domain_id : Int
  assemblies_count : Nat
  names : List CStr
  assemblies_bytes : List (List Nat)
  assemblies_bytes_len : List Nat
deriving DecidableEq

/-- The state of the class `InMemoryAssemblies`: the backing array of entry
pointers, its allocated size `capacity` and the number `length` of slots in
use. -/
structure InMemoryAssemblies where
  entries : List (Option InMemoryAssemblyEntry)
  capacity : Nat
  length : Nat
deriving DecidableEq

/-- The invocation of the managed routine `System.Reflection.Assembly.Load`
with three arguments: the byte array and the two remaining arguments, `none`
standing for a null pointer. -/
structure LoadCall where
  byteArray : List Nat
  arg1 : Option Unit
  arg2 : Option Unit
deriving DecidableEq

/-- Modelled from the spec: `MULTIPLY_WITH_OVERFLOW_CHECK` (a macro of a header
that is not in the sources at hand): the product when it is representable in
the result type of the given range, the fatal exit otherwise. -/
def multiply_with_overflow_check (range a b : Nat) : Except Abort Nat :=
  if a * b < range then .ok (a * b) else .error Abort.fatal

/-- The range `SIZE_MAX + 1` of `size_t` on a target whose pointers take
`sizeof_ptr` bytes. -/
def SIZE_RANGE (sizeof_ptr : Nat) : Nat := 2 ^ (8 * sizeof_ptr)

/-- The libc function `memcpy` on arrays of pointers: `count` slots of `src`
copied to the front of `dest`. -/
def memcpy_slots {α : Type} (dest src : List α) (count : Nat) : Except Abort (List α) :=
  if count ≤ src.length ∧ count ≤ dest.length then
    .ok (src.take count ++ dest.drop count)
  else .error Abort.fault

namespace InMemoryAssemblies

/-- Modelled from the spec: the constructor (in `inmemory-assemblies.hh`, not
in the sources at hand): the store is initialized empty; its initial capacity
is a parameter. -/
def create (capacity : Nat) : InMemoryAssemblies :=
  { entries := List.replicate capacity none, capacity := capacity, length := 0 }

/-- The loop of `find_entry` from index `i`, with `n` iterations left. -/
def find_entry_from (self : InMemoryAssemblies) (domain_id : Int) :
    Nat → Nat → Except Abort (Option InMemoryAssemblyEntry)
  | 0, _ => .ok none
  | n + 1, i =>
    match self.entries[i]? with
    | some (some entry) =>
      if entry.domain_id = domain_id then .ok (some entry)
      else find_entry_from self domain_id n (i + 1)
    | _ => .error Abort.fault

/-- The method `InMemoryAssemblies::find_entry`; `none` is `nullptr`. -/
def find_entry (self : InMemoryAssemblies) (domain_id : Int) :
    Except Abort (Option InMemoryAssemblyEntry) :=
  find_entry_from self domain_id self.length 0

/-- The method `InMemoryAssemblies::add_entry`, for pointers of `sizeof_ptr`
bytes. -/
def add_entry (sizeof_ptr : Nat) (self : InMemoryAssemblies)
    (entry : InMemoryAssemblyEntry) : Except Abort InMemoryAssemblies :=
  let grown : Except Abort InMemoryAssemblies :=
    if self.length ≥ self.capacity then
      match multiply_with_overflow_check UINT_RANGE self.capacity 2 with
      | .error e => .error e
      | .ok capacity =>
        let new_entries : List (Option InMemoryAssemblyEntry) := List.replicate capacity none
        match multiply_with_overflow_check (SIZE_RANGE sizeof_ptr) sizeof_ptr self.length with
        | .error e => .error e
        | .ok _ =>
          match memcpy_slots new_entries self.entries self.length with
          | .error e => .error e
          | .ok new_entries => .ok { self with entries := new_entries, capacity := capacity }
    else .ok self
  match grown with
  | .error e => .error e
  | .ok self =>
    if self.length < self.entries.length then
      .ok { self with entries := self.entries.set self.length (some entry),
                      length := uint_incr self.length }
    else .error Abort.fault

/-- The loop of `add_or_replace_entry` from index `i`, with `n` iterations
left. -/
def add_or_replace_entry_from (sizeof_ptr : Nat) (self : InMemoryAssemblies)
    (new_entry : InMemoryAssemblyEntry) : Nat → Nat → Except Abort InMemoryAssemblies
  | 0, _ => add_entry sizeof_ptr self new_entry
  | n + 1, i =>
    match self.entries[i]? with
    | some (some entry) =>
      if entry.domain_id = new_entry.domain_id then
        .ok { self with entries := self.entries.set i (some new_entry) }
      else add_or_replace_entry_from sizeof_ptr self new_entry n (i + 1)
    | _ => .error Abort.fault

/-- The method `InMemoryAssemblies::add_or_replace_entry`. -/
def add_or_replace_entry (sizeof_ptr : Nat) (self : InMemoryAssemblies)
    (new_entry : InMemoryAssemblyEntry) : Except Abort InMemoryAssemblies :=
  add_or_replace_entry_from sizeof_ptr self new_entry self.length 0

/-- The inner loop of `remove_entry`: `entries[j] = entries[j + 1]` from index
`j`, with `n` iterations left. -/
def shift_down (entries : List (Option InMemoryAssemblyEntry)) :
    Nat → Nat → Except Abort (List (Option InMemoryAssemblyEntry))
  | 0, _ => .ok entries
  | n + 1, j =>
    match entries[j + 1]? with
    | some p =>
      if j < entries.length then shift_down (entries.set j p) n (j + 1)
      else .error Abort.fault
    | none => .error Abort.fault

/-- The outer loop of `remove_entry` from index `i`, with `n` iterations
left. -/
def remove_entry_from (self : InMemoryAssemblies) (domain_id : Int) :
    Nat → Nat → Except Abort (Option InMemoryAssemblyEntry × InMemoryAssemblies)
  | 0, _ => .ok (none, self)
  | n + 1, i =>
    match self.entries[i]? with
    | some (some entry) =>
      if entry.domain_id = domain_id then
        match shift_down self.entries (uint_decr self.length - i) i with
        | .error e => .error e
        | .ok entries =>
          .ok (some entry, { self with entries := entries, length := uint_decr self.length })
      else remove_entry_from self domain_id n (i + 1)
    | _ => .error Abort.fault

/-- The method `InMemoryAssemblies::remove_entry`: the removed entry (`none`
is `nullptr`) and the store afterwards. -/
def remove_entry (self : InMemoryAssemblies) (domain_id : Int) :
    Except Abort (Option InMemoryAssemblyEntry × InMemoryAssemblies) :=
  remove_entry_from self domain_id self.length 0

/-- The method `InMemoryAssemblies::clear_for_domain`. -/
def clear_for_domain (self : InMemoryAssemblies) (domain : MonoDomain) :
    Except Abort InMemoryAssemblies :=
  let domain_id := mono_domain_get_id domain
  match remove_entry self domain_id with
  | .error e => .error e
  | .ok (_, self) => .ok self

/-- The loop of `load_assembly_from_memory` from index `i`, with `n`
iterations left. -/
def load_scan (entry : InMemoryAssemblyEntry) (asm_name : CStr) :
    Nat → Nat → Except Abort (Option LoadCall)
  | 0, _ => .ok none
  | n + 1, i =>
    match entry.names[i]?, entry.assemblies_bytes[i]?, entry.assemblies_bytes_len[i]? with
    | some entry_name, some entry_bytes, some entry_bytes_len =>
      if strcmp asm_name entry_name ≠ 0 then load_scan entry asm_name n (i + 1)
      else
        let byteArray := mono_array_new entry_bytes_len
        match mono_value_copy_array byteArray 0 entry_bytes (int_of_uint entry_bytes_len) with
        | none => .error Abort.fault
        | some byteArray => .ok (some { byteArray := byteArray, arg1 := none, arg2 := none })
    | _, _, _ => .error Abort.fault

/-- The method `InMemoryAssemblies::load_assembly_from_memory`. The result
`none` is `nullptr`, returned without calling the managed loader; `some call`
is the assembly the managed loader returns for `call`. -/
def load_assembly_from_memory (self : InMemoryAssemblies) (domain : MonoDomain)
    (name : MonoAssemblyName) : Except Abort (Option LoadCall) :=
  let domain_id := mono_domain_get_id domain
  match find_entry self domain_id with
  | .error e => .error e
  | .ok none => .ok none
  | .ok (some entry) =>
    let asm_name := mono_assembly_name_get_name name
    let asm_count := entry.assemblies_count
    load_scan entry asm_name asm_count 0

/-- The loop of `add_or_update_from_java` from `index`, with `n` iterations
left; the three arrays filled so far are carried along. -/
def ingest_from (assemblies : jstring_array_wrapper) (assembliesBytes : List (List Nat)) :
    Nat → Nat → List CStr × List (List Nat) × List Nat →
    Except Abort (List CStr × List (List Nat) × List Nat)
  | 0, _, acc => .ok acc
  | n + 1, index, (names, assemblies_bytes, assemblies_bytes_len) =>
    match assembliesBytes[index]? with
    | none => .error Abort.fault
    | some assembly_byte_array =>
      let bytes_len := uint_of_jsize assembly_byte_array.length
      match assemblies.get_cstr_at index with
      | .error e => .error e
      | .ok assembly =>
        match memcpy_bytes assembly_byte_array bytes_len with
        | none => .error Abort.fault
        | some copy =>
          ingest_from assemblies assembliesBytes n (index + 1)
            (names ++ [strdup_new assembly], assemblies_bytes ++ [copy],
              assemblies_bytes_len ++ [bytes_len])

/-- The method `InMemoryAssemblies::add_or_update_from_java`. The Java string
array arrives in the wrapper `assemblies`, the Java array `assembliesBytes`
(`none` when null) is given by the contents of its byte arrays. -/
def add_or_update_from_java (sizeof_ptr : Nat) (self : InMemoryAssemblies)
    (domain : MonoDomain) (assemblies : jstring_array_wrapper)
    (assembliesBytes : Option (List (List Nat))) : Except Abort InMemoryAssemblies :=
  match assembliesBytes with
  | none => .ok self
  | some assembliesBytes =>
    let len := uint_of_jsize assembliesBytes.length
    match ingest_from assemblies assembliesBytes len 0 ([], [], []) with
    | .error e => .error e
    | .ok (names, assemblies_bytes, assemblies_bytes_len) =>
      let new_entry : InMemoryAssemblyEntry :=
        { domain_id := mono_domain_get_id domain
          assemblies_count := len
          names := names
          assemblies_bytes := assemblies_bytes
          assemblies_bytes_len := assemblies_bytes_len }
      add_or_replace_entry sizeof_ptr self new_entry

end InMemoryAssemblies

/-! ## Predicates used in the statements -/

instance {ε α : Type} [DecidableEq ε] [DecidableEq α] : DecidableEq (Except ε α) := fun a b =>
  match a, b with
  | .ok x, .ok y =>
    if h : x = y then isTrue (by rw [h]) else isFalse (fun hab => h (by injection hab))
  | .error x, .error y =>
    if h : x = y then isTrue (by rw [h]) else isFalse (fun hab => h (by injection hab))
  | .ok _, .error _ => isFalse (fun hab => by cases hab)
  | .error _, .ok _ => isFalse (fun hab => by cases hab)

/-- The data-model invariant of one registered set: the three arrays have
`assemblies_count` elements, every declared length is the size of its buffer,
and every size is one a Java array can have (below `2^31`). -/
def InMemoryAssemblyEntry.WellFormed (e : InMemoryAssemblyEntry) : Prop :=
  e.names.length = e.assemblies_count ∧
  e.assemblies_bytes.length = e.assemblies_count ∧
  e.assemblies_bytes_len = e.assemblies_bytes.map List.length ∧
  ∀ n ∈ e.assemblies_bytes_len, n < 2 ^ 31

instance (e : InMemoryAssemblyEntry) : Decidable e.WellFormed := by
  unfold InMemoryAssemblyEntry.WellFormed; infer_instance

namespace InMemoryAssemblies

/-- The sets stored in the first `length` slots, in slot order. -/
def live (self : InMemoryAssemblies) : List InMemoryAssemblyEntry :=
  (self.entries.take self.length).reduceOption

/-- The representation invariant of the store: the backing array has
`capacity` slots, `1 ≤ capacity` fits an `unsigned int`, `length ≤ capacity`,
and each of the first `length` slots points to a set. -/
def Valid (self : InMemoryAssemblies) : Prop :=
  self.entries.length = self.capacity ∧ 1 ≤ self.capacity ∧ self.capacity < UINT_RANGE ∧
  self.length ≤ self.capacity ∧ ∀ p ∈ self.entries.take self.length, p ≠ none

instance (self : InMemoryAssemblies) : Decidable self.Valid := by
  unfold Valid; infer_instance

/-- A store whose first `length` slots hold exactly the sets `L`, the remaining
slots being `R`. -/
def Shape (self : InMemoryAssemblies) (L : List InMemoryAssemblyEntry)
    (R : List (Option InMemoryAssemblyEntry)) : Prop :=
  self.entries = L.map some ++ R ∧ L.length = self.length

/-- No two of the first `length` slots hold sets of the same domain. -/
def UniqueDomains (self : InMemoryAssemblies) : Prop :=
  (self.live.map (fun e => e.domain_id)).Nodup

instance (self : InMemoryAssemblies) : Decidable self.UniqueDomains := by
  unfold UniqueDomains; infer_instance

/-- Appending to the store does not run into the overflow checks of
`add_entry`: either a slot is free, or both checked products are
representable. -/
def AddFits (sizeof_ptr : Nat) (self : InMemoryAssemblies) : Prop :=
  self.length < self.capacity ∨
  (self.capacity * 2 < UINT_RANGE ∧ sizeof_ptr * self.length < SIZE_RANGE sizeof_ptr)

instance (sizeof_ptr : Nat) (self : InMemoryAssemblies) : Decidable (AddFits sizeof_ptr self) := by
  unfold AddFits; infer_instance

/-- What `add_or_replace_entry` does to a valid store, by the two ways it can
return: a replacement in place, or an append. -/
def Upserted (self : InMemoryAssemblies) (new_entry : InMemoryAssemblyEntry)
    (self' : InMemoryAssemblies) : Prop :=
  (∃ L1 x L2, self.live = L1 ++ x :: L2 ∧ (∀ y ∈ L1, y.domain_id ≠ new_entry.domain_id) ∧
      x.domain_id = new_entry.domain_id ∧ self'.live = L1 ++ new_entry :: L2 ∧
      self'.capacity = self.capacity ∧ self'.length = self.length ∧
      self'.entries = self.entries.set L1.length (some new_entry)) ∨
  ((∀ y ∈ self.live, y.domain_id ≠ new_entry.domain_id) ∧
      self'.live = self.live ++ [new_entry] ∧ self'.length = self.length + 1 ∧
      self'.capacity = (if self.length < self.capacity then self.capacity else self.capacity * 2))

/-- What `remove_entry` does to a valid store, by the two ways it can
return. -/
def Removed (self : InMemoryAssemblies) (d : Int) (res : Option InMemoryAssemblyEntry)
    (self' : InMemoryAssemblies) : Prop :=
  (∃ L1 x L2, self.live = L1 ++ x :: L2 ∧ (∀ y ∈ L1, y.domain_id ≠ d) ∧ x.domain_id = d ∧
      res = some x ∧ self'.live = L1 ++ L2 ∧ self'.length + 1 = self.length) ∨
  ((∀ y ∈ self.live, y.domain_id ≠ d) ∧ res = none ∧ self' = self)

/-- One call made to the store from outside. -/
inductive Op where
  | register (new_entry : InMemoryAssemblyEntry)
  | from_java (domain : MonoDomain) (assemblies : jstring_array_wrapper)
      (assembliesBytes : Option (List (List Nat)))
  | release (domain : MonoDomain)

/-- The effect of one call. -/
def step (sizeof_ptr : Nat) (self : InMemoryAssemblies) : Op → Except Abort InMemoryAssemblies
  | .register new_entry => add_or_replace_entry sizeof_ptr self new_entry
  | .from_java domain assemblies assembliesBytes =>
    add_or_update_from_java sizeof_ptr self domain assemblies assembliesBytes
  | .release domain => clear_for_domain self domain

/-- The effect of a sequence of calls, stopping at the first that aborts. -/
def run (sizeof_ptr : Nat) (self : InMemoryAssemblies) : List Op → Except Abort InMemoryAssemblies
  | [] => .ok self
  | op :: ops =>
    match step sizeof_ptr self op with
    | .error e => .error e
    | .ok self => run sizeof_ptr self ops

/-- The store states reachable from an empty store of some capacity
`1 ≤ capacity < 2^32` by a sequence of calls none of which aborts. -/
def Reachable (sizeof_ptr : Nat) (self : InMemoryAssemblies) : Prop :=
  ∃ capacity ops, 1 ≤ capacity ∧ capacity < UINT_RANGE ∧
    run sizeof_ptr (create capacity) ops = .ok self

end InMemoryAssemblies

/-- A call that registers a set for the domain with id `d`. -/
def InMemoryAssemblies.Op.registersFor (d : Int) : InMemoryAssemblies.Op → Prop
  | .register new_entry => new_entry.domain_id = d
  | .from_java domain _ assembliesBytes => mono_domain_get_id domain = d ∧ assembliesBytes ≠ none
  | .release _ => False

/-- A call that host code can make: a release, or a bulk registration whose
arrays are Java arrays (fewer than `2^31` elements each). -/
def InMemoryAssemblies.Op.fromHost : InMemoryAssemblies.Op → Prop
  | .register _ => False
  | .from_java _ _ assembliesBytes =>
    ∀ bufs, assembliesBytes = some bufs → bufs.length < 2 ^ 31 ∧ ∀ b ∈ bufs, b.length < 2 ^ 31
  | .release _ => True

/-! ## Concrete inputs -/

namespace Sample

/-- The name `A.dll`. -/
def A_dll : CStr := ⟨['A', '.', 'd', 'l', 'l'], by decide⟩

/-- The name `a.dll`, which differs from `A.dll` in letter case only. -/
def a_dll : CStr := ⟨['a', '.', 'd', 'l', 'l'], by decide⟩

/-- The name `B.dll`. -/
def B_dll : CStr := ⟨['B', '.', 'd', 'l', 'l'], by decide⟩

/-- The name `C.dll`. -/
def C_dll : CStr := ⟨['C', '.', 'd', 'l', 'l'], by decide⟩

/-- A lookup past the end of a name array that exits without return. -/
def no_name : Nat → Except Abort CStr := fun _ => .error Abort.fault

/-- The wrapper of the Java array with the names `A.dll`, `B.dll`; past the
end its lookup exits. -/
def names_AB : jstring_array_wrapper := { strings := [A_dll, B_dll], past_end := no_name }

/-- The wrapper of the Java array with the name `C.dll`; past the end its
lookup exits. -/
def names_C : jstring_array_wrapper := { strings := [C_dll], past_end := no_name }

/-- The wrapper of the Java array with the name `C.dll` whose lookup past the
end returns the name `B.dll`. -/
def names_C_more : jstring_array_wrapper :=
  { strings := [C_dll], past_end := fun _ => .ok B_dll }

/-- The wrapper of the empty Java array of names; past the end its lookup
exits. -/
def names_none : jstring_array_wrapper := { strings := [], past_end := no_name }

/-- A buffer of three bytes. -/
def b1 : List Nat := [77, 90, 144]

/-- A buffer of two bytes. -/
def b2 : List Nat := [80, 69]

/-- The set registered for domain 7 from the names `A.dll`, `B.dll` and the
buffers `b1`, `b2`. -/
def set7 : InMemoryAssemblyEntry :=
  { domain_id := 7, assemblies_count := 2, names := [A_dll, B_dll],
    assemblies_bytes := [b1, b2], assemblies_bytes_len := [3, 2] }

/-- A later set for domain 7 that only has `B.dll`. -/
def set7_new : InMemoryAssemblyEntry :=
  { domain_id := 7, assemblies_count := 1, names := [B_dll],
    assemblies_bytes := [b2], assemblies_bytes_len := [2] }

/-- A set for domain 9. -/
def set9 : InMemoryAssemblyEntry :=
  { domain_id := 9, assemblies_count := 1, names := [C_dll],
    assemblies_bytes := [b1], assemblies_bytes_len := [3] }

/-- The store of capacity 1 holding `set7`. -/
def store7 : InMemoryAssemblies :=
  { entries := [some set7], capacity := 1, length := 1 }

/-- The store of capacity 2 holding `set7` and `set9`. -/
def store79 : InMemoryAssemblies :=
  { entries := [some set7, some set9], capacity := 2, length := 2 }

/-- A set for domain 11. -/
def set11 : InMemoryAssemblyEntry :=
  { domain_id := 11, assemblies_count := 1, names := [A_dll],
    assemblies_bytes := [b2], assemblies_bytes_len := [2] }

/-- The set without assemblies for the domain with id `d`. -/
def bare (d : Int) : InMemoryAssemblyEntry :=
  { domain_id := d, assemblies_count := 0, names := [],
    assemblies_bytes := [], assemblies_bytes_len := [] }

/-- The full store of capacity `n` that holds the sets without assemblies of
the domains `0, …, n - 1`. -/
def full_store (n : Nat) : InMemoryAssemblies :=
  { entries := (List.range n).map (fun (i : Nat) => some (bare (Int.ofNat i))),
    capacity := n, length := n }

/-- A set for domain 7 whose second assembly has `2^31` bytes. -/
def mixed_set : InMemoryAssemblyEntry :=
  { domain_id := 7, assemblies_count := 2, names := [A_dll, B_dll],
    assemblies_bytes := [b1, List.replicate (2 ^ 31) 0], assemblies_bytes_len := [3, 2 ^ 31] }

/-- The store of capacity 1 holding `mixed_set`. -/
def mixed_store : InMemoryAssemblies :=
  { entries := [some mixed_set], capacity := 1, length := 1 }

end Sample

/-! ## Lemmas on C strings -/

theorem strcmp_chars_self (a : List Char) : strcmp_chars a a = 0 := by
  induction a with
  | nil => rfl
  | cons c cs ih => simp [strcmp_chars, ih]

theorem char_toNat_ne_zero {c : Char} (h : c ≠ Char.ofNat 0) : (c.toNat : Int) ≠ 0 := by
  intro h0
  apply h
  apply Char.ext
  have h1 : c.toNat = 0 := by exact_mod_cast h0
  have h2 : c.val.toNat = 0 := h1
  apply UInt32.ext
  simpa using h2

theorem char_toNat_sub_ne_zero {a b : Char} (h : a ≠ b) : (a.toNat : Int) - (b.toNat : Int) ≠ 0 := by
  intro h0
  apply h
  apply Char.ext
  have h1 : a.toNat = b.toNat := by omega
  have h2 : a.val.toNat = b.val.toNat := h1
  apply UInt32.ext
  simpa using h2

theorem strcmp_chars_eq_zero : ∀ (a b : List Char),
    (∀ c ∈ a, c ≠ Char.ofNat 0) → (∀ c ∈ b, c ≠ Char.ofNat 0) →
    strcmp_chars a b = 0 → a = b
  | [], [], _, _, _ => rfl
  | [], b :: bs, _, hb, h => by
    have := char_toNat_ne_zero (hb b (by simp))
    simp [strcmp_chars] at h
    omega
  | a :: as, [], ha, _, h => by
    have := char_toNat_ne_zero (ha a (by simp))
    simp [strcmp_chars] at h
    omega
  | a :: as, b :: bs, ha, hb, h => by
    by_cases hab : a = b
    · subst hab
      simp [strcmp_chars] at h
      have := strcmp_chars_eq_zero as bs (fun c hc => ha c (by simp [hc]))
        (fun c hc => hb c (by simp [hc])) h
      rw [this]
    · have := char_toNat_sub_ne_zero hab
      simp [strcmp_chars, hab] at h
      omega

/-- The comparison `strcmp` returns zero exactly on equal strings. -/
theorem strcmp_eq_zero_iff (s1 s2 : CStr) : strcmp s1 s2 = 0 ↔ s1 = s2 := by
  constructor
  · intro h
    have := strcmp_chars_eq_zero s1.chars s2.chars s1.nonul s2.nonul h
    cases s1; cases s2; simp_all
  · rintro rfl
    exact strcmp_chars_self _

/-! ## The backing array and the list of stored sets -/

theorem reduceOption_map_some {α : Type} (l : List α) : (l.map some).reduceOption = l := by
  induction l with
  | nil => rfl
  | cons a l ih => rw [List.map_cons, List.reduceOption_cons_of_some, ih]

theorem eq_map_some_of_ne_none {α : Type} : ∀ (l : List (Option α)),
    (∀ p ∈ l, p ≠ none) → l = l.reduceOption.map some
  | [], _ => rfl
  | none :: _, h => absurd rfl (h none (by simp))
  | some a :: l, h => by
    rw [List.reduceOption_cons_of_some, List.map_cons,
      ← eq_map_some_of_ne_none l (fun p hp => h p (by simp [hp]))]

theorem slot_of_shape {α : Type} (entries : List (Option α)) (L : List α) (R : List (Option α))
    (h : entries = L.map some ++ R) (k : Nat) (hk : k < L.length) :
    entries[k]? = some (some L[k]) := by
  subst h
  rw [List.getElem?_append_left (by simpa using hk)]
  simp [List.getElem?_eq_getElem hk]

namespace InMemoryAssemblies

theorem Shape.live_eq {self : InMemoryAssemblies} {L R} (h : Shape self L R) : self.live = L := by
  obtain ⟨h1, h2⟩ := h
  unfold live
  rw [h1, ← h2]
  have : (L.map some).length = L.length := by simp
  rw [← this, List.take_left, reduceOption_map_some]

theorem Shape.valid {self : InMemoryAssemblies} {L R} (h : Shape self L R)
    (hcap : L.length + R.length = self.capacity) (h1 : 1 ≤ self.capacity)
    (h2 : self.capacity < UINT_RANGE) : Valid self := by
  obtain ⟨he, hl⟩ := h
  refine ⟨by rw [he]; simpa using hcap, h1, h2, by omega, ?_⟩
  intro p hp
  rw [he, ← hl] at hp
  have : (L.map some).length = L.length := by simp
  rw [← this, List.take_left] at hp
  simp at hp
  obtain ⟨a, _, rfl⟩ := hp
  simp

theorem Valid.shape {self : InMemoryAssemblies} (h : Valid self) :
    Shape self self.live (self.entries.drop self.length) ∧
      self.live.length + (self.entries.drop self.length).length = self.capacity := by
  obtain ⟨h1, h2, h3, h4, h5⟩ := h
  have hm := eq_map_some_of_ne_none _ h5
  have hlen : self.live.length = self.length := by
    have := congrArg List.length hm
    simp only [List.length_map, List.length_take] at this
    unfold live
    rw [← this]
    omega
  refine ⟨⟨?_, hlen⟩, ?_⟩
  · unfold live
    rw [← hm, List.take_append_drop]
  · rw [hlen, List.length_drop]; omega

theorem Valid.live_length {self : InMemoryAssemblies} (h : Valid self) :
    self.live.length = self.length := h.shape.1.2

/-- Every list of sets either has no set of domain `d`, or splits at the first
set of domain `d`. -/
theorem split_first_domain (d : Int) : ∀ (L : List InMemoryAssemblyEntry),
    (∀ x ∈ L, x.domain_id ≠ d) ∨
    ∃ L1 e L2, L = L1 ++ e :: L2 ∧ (∀ x ∈ L1, x.domain_id ≠ d) ∧ e.domain_id = d
  | [] => Or.inl (by simp)
  | a :: L => by
    by_cases ha : a.domain_id = d
    · exact Or.inr ⟨[], a, L, rfl, by simp, ha⟩
    · rcases split_first_domain d L with h | ⟨L1, e, L2, h1, h2, h3⟩
      · left
        intro x hx
        rcases List.mem_cons.1 hx with rfl | hx
        · exact ha
        · exact h x hx
      · right
        refine ⟨a :: L1, e, L2, by rw [h1]; rfl, ?_, h3⟩
        intro x hx
        rcases List.mem_cons.1 hx with rfl | hx
        · exact ha
        · exact h2 x hx

/-! ## `find_entry` -/

theorem find_entry_from_skip (self : InMemoryAssemblies) (d : Int) : ∀ (m i n : Nat),
    (∀ k < m, ∃ x, self.entries[i + k]? = some (some x) ∧ x.domain_id ≠ d) →
    find_entry_from self d (m + n) i = find_entry_from self d n (i + m)
  | 0, i, n, _ => by simp
  | m + 1, i, n, h => by
    obtain ⟨x, hx, hd⟩ := h 0 (by omega)
    rw [Nat.add_zero] at hx
    have hstep : find_entry_from self d (m + 1 + n) i = find_entry_from self d (m + n) (i + 1) := by
      rw [show m + 1 + n = (m + n) + 1 by omega]
      simp [find_entry_from, hx, hd]
    rw [hstep, find_entry_from_skip self d m (i + 1) n, show i + 1 + m = i + (m + 1) by omega]
    intro k hk
    obtain ⟨y, hy, hyd⟩ := h (k + 1) (by omega)
    exact ⟨y, by rw [show i + 1 + k = i + (k + 1) by omega]; exact hy, hyd⟩

theorem shape_skip {self : InMemoryAssemblies} {L1 : List InMemoryAssemblyEntry}
    {T : List (Option InMemoryAssemblyEntry)} {d : Int}
    (he : self.entries = L1.map some ++ T) (h : ∀ x ∈ L1, x.domain_id ≠ d) :
    ∀ k < L1.length, ∃ x, self.entries[0 + k]? = some (some x) ∧ x.domain_id ≠ d := by
  intro k hk
  refine ⟨L1[k], ?_, h _ (List.getElem_mem hk)⟩
  rw [Nat.zero_add]
  exact slot_of_shape _ _ _ he k hk

theorem find_entry_miss {self : InMemoryAssemblies} {L R} (hs : Shape self L R) {d : Int}
    (h : ∀ x ∈ L, x.domain_id ≠ d) : find_entry self d = .ok none := by
  unfold find_entry
  rw [← hs.2]
  have := find_entry_from_skip self d L.length 0 0 (shape_skip hs.1 h)
  rw [Nat.add_zero] at this
  rw [this]
  rfl

theorem find_entry_hit {self : InMemoryAssemblies} {L1 e L2 R} (hs : Shape self (L1 ++ e :: L2) R)
    {d : Int} (h : ∀ x ∈ L1, x.domain_id ≠ d) (he : e.domain_id = d) :
    find_entry self d = .ok (some e) := by
  unfold find_entry
  have hent : self.entries = L1.map some ++ (some e :: (L2.map some ++ R)) := by
    rw [hs.1]; simp
  rw [← hs.2, show (L1 ++ e :: L2).length = L1.length + (L2.length + 1) by simp]
  rw [find_entry_from_skip self d L1.length 0 _ (shape_skip hent h), Nat.zero_add]
  have hx : self.entries[L1.length]? = some (some e) := by
    rw [hent, List.getElem?_append_right (by simp)]
    simp
  simp [find_entry_from, hx, he]

end InMemoryAssemblies

namespace InMemoryAssemblies

/-! ## `add_entry` -/

theorem uint_incr_of_lt {x : Nat} (h : x + 1 < UINT_RANGE) : uint_incr x = x + 1 :=
  Nat.mod_eq_of_lt h

theorem uint_decr_succ {x : Nat} (h : x + 1 < UINT_RANGE) : uint_decr (x + 1) = x := by
  unfold uint_decr
  have : x + 1 + (UINT_RANGE - 1) = x + UINT_RANGE := by omega
  rw [this, Nat.add_mod_right, Nat.mod_eq_of_lt (by omega)]

/-- With a free slot, `add_entry` writes the set into slot `length`. -/
theorem add_entry_free (sizeof_ptr : Nat) {self : InMemoryAssemblies} {L R}
    (entry : InMemoryAssemblyEntry) (hs : Shape self L R)
    (hcap : L.length + R.length = self.capacity) (h2 : self.capacity < UINT_RANGE)
    (hfree : self.length < self.capacity) :
    ∃ self' R', add_entry sizeof_ptr self entry = .ok self' ∧ Shape self' (L ++ [entry]) R' ∧
      (L ++ [entry]).length + R'.length = self'.capacity ∧ self'.capacity = self.capacity ∧
      self'.length = self.length + 1 := by
  obtain ⟨he, hl⟩ := hs
  have hlen : self.entries.length = self.capacity := by rw [he]; simpa using hcap
  cases R with
  | nil => simp at hcap; omega
  | cons r R' =>
    refine ⟨{ self with entries := self.entries.set self.length (some entry),
                        length := uint_incr self.length }, R', ?_, ⟨?_, ?_⟩, ?_, rfl, ?_⟩
    · unfold add_entry
      simp [Nat.not_le.2 hfree, hlen, hfree]
    · show self.entries.set self.length (some entry) = _
      rw [he, ← hl, List.set_append_right _ _ (by simp)]
      simp
    · show _ = uint_incr self.length
      rw [uint_incr_of_lt (by omega)]
      simp [hl]
    · show _ = self.capacity
      simp at hcap ⊢
      omega
    · show uint_incr self.length = _
      exact uint_incr_of_lt (by omega)

/-- With no free slot, `add_entry` doubles the capacity, keeps the stored sets
and writes the new set into slot `length`. -/
theorem add_entry_grow (sizeof_ptr : Nat) {self : InMemoryAssemblies} {L}
    (entry : InMemoryAssemblyEntry) (hs : Shape self L [])
    (hcap : L.length = self.capacity) (h1 : 1 ≤ self.capacity)
    (hmul : self.capacity * 2 < UINT_RANGE)
    (hsize : sizeof_ptr * self.length < SIZE_RANGE sizeof_ptr) :
    ∃ self' R', add_entry sizeof_ptr self entry = .ok self' ∧ Shape self' (L ++ [entry]) R' ∧
      (L ++ [entry]).length + R'.length = self'.capacity ∧
      self'.capacity = self.capacity * 2 ∧ self'.length = self.length + 1 := by
  obtain ⟨he, hl⟩ := hs
  have he' : self.entries = L.map some := by simpa using he
  have hlen : self.entries.length = self.capacity := by rw [he']; simpa using hcap
  have hfull : self.length = self.capacity := by omega
  have hcopy : memcpy_slots (List.replicate (self.capacity * 2) (none : Option InMemoryAssemblyEntry))
      self.entries self.length
      = .ok (L.map some ++ List.replicate (self.capacity * 2 - self.length) none) := by
    unfold memcpy_slots
    rw [if_pos (by simp [hlen]; omega)]
    congr 2
    · rw [he', ← hl]
      simp
    · simp
  refine ⟨{ entries := (L.map some ++ List.replicate (self.capacity * 2 - self.length) none).set
              self.length (some entry),
            capacity := self.capacity * 2, length := uint_incr self.length },
          List.replicate (self.capacity * 2 - self.length - 1) none, ?_, ⟨?_, ?_⟩, ?_, rfl, ?_⟩
  · unfold add_entry
    simp only [ge_iff_le, hfull, le_refl, if_true]
    simp only [multiply_with_overflow_check, hmul, if_true]
    rw [hfull] at hsize hcopy
    simp only [hsize, if_true, hcopy]
    rw [if_pos (by simp; omega)]
  · show (L.map some ++ List.replicate (self.capacity * 2 - self.length) none).set
        self.length (some entry) = _
    rw [← hl, List.set_append_right _ _ (by simp)]
    have : self.capacity * 2 - L.length = (self.capacity * 2 - L.length - 1) + 1 := by omega
    rw [this]
    simp [List.replicate_succ]
  · show _ = uint_incr self.length
    rw [uint_incr_of_lt (by omega)]
    simp [hl]
  · show _ = self.capacity * 2
    simp
    omega
  · show uint_incr self.length = _
    exact uint_incr_of_lt (by omega)

/-- Whenever the overflow checks pass, `add_entry` appends the set. -/
theorem add_entry_ok (sizeof_ptr : Nat) {self : InMemoryAssemblies}
    (entry : InMemoryAssemblyEntry) (hv : Valid self) (hfit : AddFits sizeof_ptr self) :
    ∃ self', add_entry sizeof_ptr self entry = .ok self' ∧ Valid self' ∧
      self'.live = self.live ++ [entry] ∧ self'.length = self.length + 1 ∧
      self'.capacity = (if self.length < self.capacity then self.capacity else self.capacity * 2) := by
  obtain ⟨hs, hcap⟩ := hv.shape
  obtain ⟨h1, h2, h3, h4, h5⟩ := hv
  by_cases hfree : self.length < self.capacity
  · obtain ⟨s', R', e1, e2, e3, e4, e5⟩ := add_entry_free sizeof_ptr entry hs hcap h3 hfree
    refine ⟨s', e1, e2.valid e3 (by omega) (by omega), e2.live_eq, e5, ?_⟩
    rw [if_pos hfree, e4]
  · have hmul : self.capacity * 2 < UINT_RANGE ∧ sizeof_ptr * self.length < SIZE_RANGE sizeof_ptr := by
      rcases hfit with h | h
      · exact absurd h hfree
      · exact h
    have hR : self.entries.drop self.length = [] := by
      apply List.drop_eq_nil_of_le
      omega
    rw [hR] at hs hcap
    obtain ⟨s', R', e1, e2, e3, e4, e5⟩ :=
      add_entry_grow sizeof_ptr entry hs (by simpa using hcap) h2 hmul.1 hmul.2
    refine ⟨s', e1, e2.valid e3 (by omega) (by rw [e4]; exact hmul.1), e2.live_eq, e5, ?_⟩
    rw [if_neg hfree, e4]

/-- When an overflow check fails, `add_entry` takes the fatal exit. -/
theorem add_entry_fatal (sizeof_ptr : Nat) {self : InMemoryAssemblies}
    (entry : InMemoryAssemblyEntry) (hfit : ¬ AddFits sizeof_ptr self) :
    add_entry sizeof_ptr self entry = .error Abort.fatal := by
  unfold AddFits at hfit
  push_neg at hfit
  obtain ⟨hfull, hover⟩ := hfit
  unfold add_entry
  simp only [ge_iff_le, hfull, if_true, multiply_with_overflow_check]
  by_cases hmul : self.capacity * 2 < UINT_RANGE
  · have := hover hmul
    simp [hmul, Nat.not_lt.2 this]
  · simp [hmul]

end InMemoryAssemblies

namespace InMemoryAssemblies

/-! ## `add_or_replace_entry` -/

theorem add_or_replace_entry_from_skip (sizeof_ptr : Nat) (self : InMemoryAssemblies)
    (new_entry : InMemoryAssemblyEntry) : ∀ (m i n : Nat),
    (∀ k < m, ∃ x, self.entries[i + k]? = some (some x) ∧ x.domain_id ≠ new_entry.domain_id) →
    add_or_replace_entry_from sizeof_ptr self new_entry (m + n) i
      = add_or_replace_entry_from sizeof_ptr self new_entry n (i + m)
  | 0, i, n, _ => by simp
  | m + 1, i, n, h => by
    obtain ⟨x, hx, hd⟩ := h 0 (by omega)
    rw [Nat.add_zero] at hx
    have hstep : add_or_replace_entry_from sizeof_ptr self new_entry (m + 1 + n) i
        = add_or_replace_entry_from sizeof_ptr self new_entry (m + n) (i + 1) := by
      rw [show m + 1 + n = (m + n) + 1 by omega]
      simp [add_or_replace_entry_from, hx, hd]
    rw [hstep, add_or_replace_entry_from_skip sizeof_ptr self new_entry m (i + 1) n,
      show i + 1 + m = i + (m + 1) by omega]
    intro k hk
    obtain ⟨y, hy, hyd⟩ := h (k + 1) (by omega)
    exact ⟨y, by rw [show i + 1 + k = i + (k + 1) by omega]; exact hy, hyd⟩

/-- Without a stored set of the same domain, `add_or_replace_entry` is
`add_entry`. -/
theorem add_or_replace_entry_miss (sizeof_ptr : Nat) {self : InMemoryAssemblies} {L R}
    (hs : Shape self L R) {new_entry : InMemoryAssemblyEntry}
    (h : ∀ x ∈ L, x.domain_id ≠ new_entry.domain_id) :
    add_or_replace_entry sizeof_ptr self new_entry = add_entry sizeof_ptr self new_entry := by
  unfold add_or_replace_entry
  rw [← hs.2]
  have := add_or_replace_entry_from_skip sizeof_ptr self new_entry L.length 0 0 (shape_skip hs.1 h)
  rw [Nat.add_zero] at this
  rw [this]
  rfl

/-- With a stored set of the same domain, `add_or_replace_entry` overwrites
the slot of the first one. -/
theorem add_or_replace_entry_hit (sizeof_ptr : Nat) {self : InMemoryAssemblies} {L1 e L2 R}
    (hs : Shape self (L1 ++ e :: L2) R) {new_entry : InMemoryAssemblyEntry}
    (h : ∀ x ∈ L1, x.domain_id ≠ new_entry.domain_id) (he : e.domain_id = new_entry.domain_id) :
    ∃ self', add_or_replace_entry sizeof_ptr self new_entry = .ok self' ∧
      Shape self' (L1 ++ new_entry :: L2) R ∧ self'.capacity = self.capacity ∧
      self'.length = self.length ∧
      self'.entries = self.entries.set L1.length (some new_entry) := by
  have hent : self.entries = L1.map some ++ (some e :: (L2.map some ++ R)) := by
    rw [hs.1]; simp
  refine ⟨{ self with entries := self.entries.set L1.length (some new_entry) }, ?_, ⟨?_, ?_⟩,
    rfl, rfl, rfl⟩
  · unfold add_or_replace_entry
    rw [← hs.2, show (L1 ++ e :: L2).length = L1.length + (L2.length + 1) by simp]
    rw [add_or_replace_entry_from_skip sizeof_ptr self new_entry L1.length 0 _ (shape_skip hent h),
      Nat.zero_add]
    have hx : self.entries[L1.length]? = some (some e) := by
      rw [hent, List.getElem?_append_right (by simp)]
      simp
    have hl : self.length = L1.length + (L2.length + 1) := by
      rw [← hs.2]; simp
    simp [add_or_replace_entry_from, hx, he]
    exact hl
  · show self.entries.set L1.length (some new_entry) = _
    rw [hent, List.set_append_right _ _ (by simp)]
    simp
  · show _ = self.length
    rw [← hs.2]
    simp

/-! ## `remove_entry` -/

theorem shift_down_spec : ∀ (mid pre : List (Option InMemoryAssemblyEntry))
    (x : Option InMemoryAssemblyEntry) (rest : List (Option InMemoryAssemblyEntry)),
    ∃ p, shift_down (pre ++ x :: mid ++ rest) mid.length pre.length
      = .ok (pre ++ mid ++ p :: rest)
  | [], pre, x, rest => ⟨x, by simp [shift_down]⟩
  | y :: mid, pre, x, rest => by
    obtain ⟨p, hp⟩ := shift_down_spec mid (pre ++ [y]) y rest
    refine ⟨p, ?_⟩
    have h1 : (pre ++ x :: (y :: mid) ++ rest)[pre.length + 1]? = some y := by
      rw [List.append_assoc, List.getElem?_append_right (by omega)]
      simp
    have h2 : (pre ++ x :: (y :: mid) ++ rest).set pre.length y
        = (pre ++ [y]) ++ y :: mid ++ rest := by
      rw [List.append_assoc, List.set_append_right _ _ (by omega)]
      simp
    have h3 : pre.length < (pre ++ x :: (y :: mid) ++ rest).length := by
      simp
    rw [List.length_cons, shift_down, h1]
    simp only [h3, if_true, h2]
    have h4 : (pre ++ [y]).length = pre.length + 1 := by simp
    rw [h4] at hp
    rw [hp]
    simp

theorem remove_entry_from_skip (self : InMemoryAssemblies) (d : Int) : ∀ (m i n : Nat),
    (∀ k < m, ∃ x, self.entries[i + k]? = some (some x) ∧ x.domain_id ≠ d) →
    remove_entry_from self d (m + n) i = remove_entry_from self d n (i + m)
  | 0, i, n, _ => by simp
  | m + 1, i, n, h => by
    obtain ⟨x, hx, hd⟩ := h 0 (by omega)
    rw [Nat.add_zero] at hx
    have hstep : remove_entry_from self d (m + 1 + n) i = remove_entry_from self d (m + n) (i + 1) := by
      rw [show m + 1 + n = (m + n) + 1 by omega]
      simp [remove_entry_from, hx, hd]
    rw [hstep, remove_entry_from_skip self d m (i + 1) n, show i + 1 + m = i + (m + 1) by omega]
    intro k hk
    obtain ⟨y, hy, hyd⟩ := h (k + 1) (by omega)
    exact ⟨y, by rw [show i + 1 + k = i + (k + 1) by omega]; exact hy, hyd⟩

/-- Without a stored set of domain `d`, `remove_entry` returns `nullptr` and
the store is untouched. -/
theorem remove_entry_miss {self : InMemoryAssemblies} {L R} (hs : Shape self L R) {d : Int}
    (h : ∀ x ∈ L, x.domain_id ≠ d) : remove_entry self d = .ok (none, self) := by
  unfold remove_entry
  rw [← hs.2]
  have := remove_entry_from_skip self d L.length 0 0 (shape_skip hs.1 h)
  rw [Nat.add_zero] at this
  rw [this]
  rfl

/-- With a stored set of domain `d`, `remove_entry` returns the first one and
closes the gap it leaves. -/
theorem remove_entry_hit {self : InMemoryAssemblies} {L1 e L2 R}
    (hs : Shape self (L1 ++ e :: L2) R) (hlen : self.length < UINT_RANGE) {d : Int}
    (h : ∀ x ∈ L1, x.domain_id ≠ d) (he : e.domain_id = d) :
    ∃ self' p, remove_entry self d = .ok (some e, self') ∧ Shape self' (L1 ++ L2) (p :: R) ∧
      self'.capacity = self.capacity ∧ self'.length + 1 = self.length := by
  have hent : self.entries = L1.map some ++ (some e :: (L2.map some ++ R)) := by
    rw [hs.1]; simp
  have hent' : self.entries = L1.map some ++ some e :: L2.map some ++ R := by
    rw [hs.1]; simp
  have hl : self.length = L1.length + L2.length + 1 := by
    rw [← hs.2]; simp; omega
  have hdec : uint_decr self.length = L1.length + L2.length := by
    rw [hl]; exact uint_decr_succ (by omega)
  obtain ⟨p, hp⟩ := shift_down_spec (L2.map some) (L1.map some) (some e) R
  rw [← hent'] at hp
  simp only [List.length_map] at hp
  refine ⟨{ self with entries := L1.map some ++ L2.map some ++ p :: R,
                      length := uint_decr self.length }, p, ?_, ⟨?_, ?_⟩, rfl, ?_⟩
  · unfold remove_entry
    rw [← hs.2, show (L1 ++ e :: L2).length = L1.length + (L2.length + 1) by simp]
    rw [remove_entry_from_skip self d L1.length 0 _ (shape_skip hent h), Nat.zero_add]
    have hx : self.entries[L1.length]? = some (some e) := by
      rw [hent, List.getElem?_append_right (by simp)]
      simp
    have hfuel : uint_decr self.length - L1.length = L2.length := by omega
    simp [remove_entry_from, hx, he, hfuel, hp]
    rw [hl, Nat.add_assoc]
  · show L1.map some ++ L2.map some ++ p :: R = _
    simp
  · show _ = uint_decr self.length
    rw [hdec]; simp
  · show uint_decr self.length + 1 = _
    omega

end InMemoryAssemblies

namespace InMemoryAssemblies

/-! ## The operations on valid stores -/

/-- On a valid store `find_entry` returns the first stored set of the
domain. -/
theorem find_entry_eq_find {self : InMemoryAssemblies} (hv : Valid self) (d : Int) :
    find_entry self d = .ok (self.live.find? (fun x => decide (x.domain_id = d))) := by
  obtain ⟨hs, -⟩ := hv.shape
  rcases split_first_domain d self.live with h | ⟨L1, e, L2, h1, h2, h3⟩
  · rw [find_entry_miss hs h]
    congr 1
    symm
    rw [List.find?_eq_none]
    intro x hx
    simpa using h x hx
  · rw [h1] at hs
    rw [find_entry_hit hs h2 h3, h1]
    congr 1
    symm
    rw [List.find?_eq_some]
    refine ⟨by simpa using h3, L1, L2, rfl, ?_⟩
    intro a ha
    simpa using h2 a ha

theorem add_or_replace_entry_spec (sizeof_ptr : Nat) {self : InMemoryAssemblies}
    (hv : Valid self) (new_entry : InMemoryAssemblyEntry)
    (hfit : (∃ x ∈ self.live, x.domain_id = new_entry.domain_id) ∨ AddFits sizeof_ptr self) :
    ∃ self', add_or_replace_entry sizeof_ptr self new_entry = .ok self' ∧ Valid self' ∧
      Upserted self new_entry self' := by
  obtain ⟨hs, hcap⟩ := hv.shape
  rcases split_first_domain new_entry.domain_id self.live with h | ⟨L1, e, L2, h1, h2, h3⟩
  · have hfit' : AddFits sizeof_ptr self := by
      rcases hfit with ⟨x, hx, hxd⟩ | hfit
      · exact absurd hxd (h x hx)
      · exact hfit
    obtain ⟨s', e1, e2, e3, e4, e5⟩ := add_entry_ok sizeof_ptr new_entry hv hfit'
    exact ⟨s', by rw [add_or_replace_entry_miss sizeof_ptr hs h]; exact e1, e2,
      Or.inr ⟨h, e3, e4, e5⟩⟩
  · rw [h1] at hs
    obtain ⟨s', e1, e2, e3, e4, e5⟩ := add_or_replace_entry_hit sizeof_ptr hs h2 h3
    have hv' : Valid s' := by
      obtain ⟨v1, v2, v3, v4, v5⟩ := hv
      refine e2.valid ?_ (by omega) (by omega)
      rw [e3, ← hcap, h1]
      simp
    exact ⟨s', e1, hv', Or.inl ⟨L1, e, L2, h1, h2, h3, e2.live_eq, e3, e4, e5⟩⟩

/-- On a valid store `add_or_replace_entry` returns as specified or takes the
fatal exit of the overflow check; it never faults. -/
theorem add_or_replace_entry_total (sizeof_ptr : Nat) {self : InMemoryAssemblies}
    (hv : Valid self) (new_entry : InMemoryAssemblyEntry) :
    add_or_replace_entry sizeof_ptr self new_entry = .error Abort.fatal ∨
    ∃ self', add_or_replace_entry sizeof_ptr self new_entry = .ok self' ∧ Valid self' ∧
      Upserted self new_entry self' := by
  by_cases hfit : (∃ x ∈ self.live, x.domain_id = new_entry.domain_id) ∨ AddFits sizeof_ptr self
  · exact Or.inr (add_or_replace_entry_spec sizeof_ptr hv new_entry hfit)
  · left
    push_neg at hfit
    obtain ⟨hs, -⟩ := hv.shape
    rw [add_or_replace_entry_miss sizeof_ptr hs hfit.1]
    exact add_entry_fatal sizeof_ptr new_entry hfit.2

theorem add_or_replace_entry_of_ok (sizeof_ptr : Nat) {self self' : InMemoryAssemblies}
    (hv : Valid self) {new_entry : InMemoryAssemblyEntry}
    (h : add_or_replace_entry sizeof_ptr self new_entry = .ok self') :
    Valid self' ∧ Upserted self new_entry self' := by
  rcases add_or_replace_entry_total sizeof_ptr hv new_entry with h' | ⟨s', h1, h2, h3⟩
  · rw [h] at h'; cases h'
  · rw [h] at h1
    injection h1 with h1
    subst h1
    exact ⟨h2, h3⟩

theorem remove_entry_spec {self : InMemoryAssemblies} (hv : Valid self) (d : Int) :
    ∃ res self', remove_entry self d = .ok (res, self') ∧ Valid self' ∧
      self'.capacity = self.capacity ∧ Removed self d res self' := by
  obtain ⟨hs, hcap⟩ := hv.shape
  rcases split_first_domain d self.live with h | ⟨L1, e, L2, h1, h2, h3⟩
  · exact ⟨none, self, remove_entry_miss hs h, hv, rfl, Or.inr ⟨h, rfl, rfl⟩⟩
  · rw [h1] at hs
    obtain ⟨v1, v2, v3, v4, v5⟩ := hv
    obtain ⟨s', p, e1, e2, e3, e4⟩ := remove_entry_hit hs (by omega) h2 h3
    have hv' : Valid s' := by
      refine e2.valid ?_ (by omega) (by omega)
      rw [e3, ← hcap, h1]
      simp
      omega
    exact ⟨some e, s', e1, hv', e3, Or.inl ⟨L1, e, L2, h1, h2, h3, rfl, e2.live_eq, e4⟩⟩

theorem remove_entry_of_ok {self self' : InMemoryAssemblies} (hv : Valid self) {d : Int}
    {res : Option InMemoryAssemblyEntry} (h : remove_entry self d = .ok (res, self')) :
    Valid self' ∧ self'.capacity = self.capacity ∧ Removed self d res self' := by
  obtain ⟨r, s', h1, h2, h3, h4⟩ := remove_entry_spec hv d
  rw [h] at h1
  injection h1 with h1
  injection h1 with h1 h1'
  subst h1 h1'
  exact ⟨h2, h3, h4⟩

theorem clear_for_domain_eq {self : InMemoryAssemblies} {d : Int}
    {res : Option InMemoryAssemblyEntry} {self' : InMemoryAssemblies}
    (h : remove_entry self d = .ok (res, self')) : clear_for_domain self d = .ok self' := by
  unfold clear_for_domain mono_domain_get_id
  simp [h]

theorem clear_for_domain_of_ok {self self' : InMemoryAssemblies} (hv : Valid self) {d : Int}
    (h : clear_for_domain self d = .ok self') :
    ∃ res, remove_entry self d = .ok (res, self') := by
  obtain ⟨r, s', h1, -⟩ := remove_entry_spec hv d
  rw [clear_for_domain_eq h1] at h
  injection h with h
  subst h
  exact ⟨r, h1⟩

end InMemoryAssemblies

/-! ## `load_assembly_from_memory` -/

theorem UINT_RANGE_eq : UINT_RANGE = 4294967296 := by decide

theorem int_of_uint_of_lt {x : Nat} (h : x < 2 ^ 31) : int_of_uint x = (x : Int) := by
  unfold int_of_uint
  have : x % UINT_RANGE = x := Nat.mod_eq_of_lt (by rw [UINT_RANGE_eq]; omega)
  rw [this, if_pos h]

/-- Copying a whole buffer of a representable size into a fresh managed array
of that size yields the buffer. -/
theorem copy_into_new_array (b : List Nat) (h : b.length < 2 ^ 31) :
    mono_value_copy_array (mono_array_new b.length) 0 b (int_of_uint b.length) = some b := by
  rw [int_of_uint_of_lt h]
  unfold mono_value_copy_array mono_array_new
  simp

theorem mem_of_getElem?_eq_some {α : Type} {l : List α} {k : Nat} {a : α}
    (h : l[k]? = some a) : a ∈ l := by
  obtain ⟨hk, rfl⟩ := List.getElem?_eq_some.1 h
  exact List.getElem_mem hk

namespace InMemoryAssemblies

theorem load_scan_skip (entry : InMemoryAssemblyEntry) (r : CStr) : ∀ (m i n : Nat),
    (∀ k < m, ∃ nm b l, entry.names[i + k]? = some nm ∧ entry.assemblies_bytes[i + k]? = some b ∧
      entry.assemblies_bytes_len[i + k]? = some l ∧ nm ≠ r) →
    load_scan entry r (m + n) i = load_scan entry r n (i + m)
  | 0, i, n, _ => by simp
  | m + 1, i, n, h => by
    obtain ⟨nm, b, l, h1, h2, h3, hne⟩ := h 0 (by omega)
    rw [Nat.add_zero] at h1 h2 h3
    have hcmp : strcmp r nm ≠ 0 := by
      rw [Ne, strcmp_eq_zero_iff]
      exact fun hh => hne hh.symm
    have hstep : load_scan entry r (m + 1 + n) i = load_scan entry r (m + n) (i + 1) := by
      rw [show m + 1 + n = (m + n) + 1 by omega]
      simp [load_scan, h1, h2, h3, hcmp]
    rw [hstep, load_scan_skip entry r m (i + 1) n, show i + 1 + m = i + (m + 1) by omega]
    intro k hk
    obtain ⟨nm', b', l', g1, g2, g3, gne⟩ := h (k + 1) (by omega)
    rw [show i + (k + 1) = i + 1 + k by omega] at g1 g2 g3
    exact ⟨nm', b', l', g1, g2, g3, gne⟩

theorem wellFormed_slots {entry : InMemoryAssemblyEntry} (hwf : entry.WellFormed) {k : Nat}
    (hk : k < entry.assemblies_count) :
    ∃ nm b, entry.names[k]? = some nm ∧ entry.assemblies_bytes[k]? = some b ∧
      entry.assemblies_bytes_len[k]? = some b.length ∧ b.length < 2 ^ 31 := by
  obtain ⟨h1, h2, h3, h4⟩ := hwf
  have hk1 : k < entry.names.length := by omega
  have hk2 : k < entry.assemblies_bytes.length := by omega
  have hlen : entry.assemblies_bytes_len[k]? = some entry.assemblies_bytes[k].length := by
    rw [h3, List.getElem?_map, List.getElem?_eq_getElem hk2]
    rfl
  refine ⟨entry.names[k], entry.assemblies_bytes[k], List.getElem?_eq_getElem hk1,
    List.getElem?_eq_getElem hk2, hlen, ?_⟩
  apply h4
  exact mem_of_getElem?_eq_some hlen

/-- The scan of a well-formed set that has no entry named `r` ends without a
match. -/
theorem load_scan_miss {entry : InMemoryAssemblyEntry} (hwf : entry.WellFormed) {r : CStr}
    (h : r ∉ entry.names) : load_scan entry r entry.assemblies_count 0 = .ok none := by
  have := load_scan_skip entry r entry.assemblies_count 0 0 (by
    intro k hk
    obtain ⟨nm, b, g1, g2, g3, -⟩ := wellFormed_slots hwf hk
    rw [Nat.zero_add]
    refine ⟨nm, b, _, g1, g2, g3, ?_⟩
    rintro rfl
    exact h (mem_of_getElem?_eq_some g1))
  rw [Nat.add_zero] at this
  rw [this]
  rfl

/-- The scan of a well-formed set stops at the first entry named `r` and calls
the managed loader with a copy of that entry's bytes and two null arguments. -/
theorem load_scan_hit {entry : InMemoryAssemblyEntry} (hwf : entry.WellFormed) {r : CStr}
    {i : Nat} (hi : i < entry.assemblies_count) (hname : entry.names[i]? = some r)
    (hmin : ∀ j < i, entry.names[j]? ≠ some r) :
    ∃ b, entry.assemblies_bytes[i]? = some b ∧
      entry.assemblies_bytes_len[i]? = some b.length ∧
      load_scan entry r entry.assemblies_count 0
        = .ok (some { byteArray := b, arg1 := none, arg2 := none }) := by
  obtain ⟨nm, b, g1, g2, g3, g4⟩ := wellFormed_slots hwf hi
  refine ⟨b, g2, g3, ?_⟩
  have hsplit : entry.assemblies_count = i + ((entry.assemblies_count - i - 1) + 1) := by omega
  rw [hsplit, load_scan_skip entry r i 0 _ (by
    intro k hk
    obtain ⟨nm', b', f1, f2, f3, -⟩ := wellFormed_slots hwf (show k < entry.assemblies_count by omega)
    rw [Nat.zero_add]
    refine ⟨nm', b', _, f1, f2, f3, ?_⟩
    rintro rfl
    exact hmin k hk f1), Nat.zero_add]
  have hcmp : strcmp r r = 0 := (strcmp_eq_zero_iff r r).2 rfl
  simp [load_scan, hname, g2, g3, hcmp, copy_into_new_array b g4]

theorem load_assembly_from_memory_congr {s1 s2 : InMemoryAssemblies} {d : MonoDomain}
    (h : find_entry s1 (mono_domain_get_id d) = find_entry s2 (mono_domain_get_id d))
    (r : MonoAssemblyName) :
    load_assembly_from_memory s1 d r = load_assembly_from_memory s2 d r := by
  unfold load_assembly_from_memory
  simp only [h]

theorem load_assembly_from_memory_absent {self : InMemoryAssemblies} {d : MonoDomain}
    (h : find_entry self (mono_domain_get_id d) = .ok none) (r : MonoAssemblyName) :
    load_assembly_from_memory self d r = .ok none := by
  unfold load_assembly_from_memory
  simp only [h]

theorem load_assembly_from_memory_found {self : InMemoryAssemblies} {d : MonoDomain}
    {entry : InMemoryAssemblyEntry}
    (h : find_entry self (mono_domain_get_id d) = .ok (some entry))
    (r : MonoAssemblyName) :
    load_assembly_from_memory self d r = load_scan entry r entry.assemblies_count 0 := by
  unfold load_assembly_from_memory mono_assembly_name_get_name
  simp only [h]

/-! ## `add_or_update_from_java` -/

theorem get_cstr_at_of_lt (assemblies : jstring_array_wrapper) {index : Nat}
    (h : index < assemblies.strings.length) :
    assemblies.get_cstr_at index = .ok assemblies.strings[index] := by
  unfold jstring_array_wrapper.get_cstr_at
  rw [List.getElem?_eq_getElem h]

theorem get_cstr_at_of_le (assemblies : jstring_array_wrapper) {index : Nat}
    (h : assemblies.strings.length ≤ index) :
    assemblies.get_cstr_at index = assemblies.past_end index := by
  unfold jstring_array_wrapper.get_cstr_at
  rw [List.getElem?_eq_none h]

/-- The loop, as long as every lookup of a name returns: it appends the names
looked up, the buffers and their sizes. -/
theorem ingest_from_names (assemblies : jstring_array_wrapper) (assembliesBytes : List (List Nat))
    (hb : ∀ b ∈ assembliesBytes, b.length < UINT_RANGE) : ∀ (nms : List CStr) (index : Nat)
    (acc : List CStr × List (List Nat) × List Nat),
    index + nms.length ≤ assembliesBytes.length →
    (∀ j (hj : j < nms.length), assemblies.get_cstr_at (index + j) = .ok nms[j]) →
    ingest_from assemblies assembliesBytes nms.length index acc
      = .ok (acc.1 ++ nms,
             acc.2.1 ++ (assembliesBytes.drop index).take nms.length,
             acc.2.2 ++ ((assembliesBytes.drop index).take nms.length).map List.length)
  | [], index, acc, _, _ => by simp [ingest_from]
  | nm :: nms, index, (names, bytes, lens), h1, h2 => by
    have hl : (nm :: nms).length = nms.length + 1 := rfl
    have i2 : index < assembliesBytes.length := by rw [hl] at h1; omega
    have hn0 : assemblies.get_cstr_at index = .ok nm := h2 0 (by rw [hl]; omega)
    have hlen : uint_of_jsize assembliesBytes[index].length = assembliesBytes[index].length :=
      Nat.mod_eq_of_lt (hb _ (List.getElem_mem i2))
    have hcopy : memcpy_bytes assembliesBytes[index] assembliesBytes[index].length
        = some assembliesBytes[index] := by
      simp [memcpy_bytes]
    rw [hl, ingest_from, List.getElem?_eq_getElem i2]
    simp only [hn0, hlen, hcopy]
    rw [ingest_from_names assemblies assembliesBytes hb nms (index + 1) _
      (by rw [hl] at h1; omega)
      (fun j hj => by
        have h := h2 (j + 1) (by rw [hl]; omega)
        rw [show index + (j + 1) = index + 1 + j by omega] at h
        exact h)]
    rw [List.drop_eq_getElem_cons i2]
    simp only [List.take_succ_cons, List.map_cons, List.append_assoc, List.singleton_append,
      strdup_new]

/-- The loop, when the lookup of a name exits after some lookups that
returned: the loop exits the same way. -/
theorem ingest_from_exit (assemblies : jstring_array_wrapper) (assembliesBytes : List (List Nat))
    (hb : ∀ b ∈ assembliesBytes, b.length < UINT_RANGE) (e : Abort) : ∀ (nms : List CStr)
    (index : Nat) (acc : List CStr × List (List Nat) × List Nat) (m : Nat),
    index + nms.length < assembliesBytes.length →
    (∀ j (hj : j < nms.length), assemblies.get_cstr_at (index + j) = .ok nms[j]) →
    assemblies.get_cstr_at (index + nms.length) = .error e →
    ingest_from assemblies assembliesBytes (nms.length + (m + 1)) index acc = .error e
  | [], index, (names, bytes, lens), m, h1, _, h3 => by
    have i2 : index < assembliesBytes.length := by simpa using h1
    have h3' : assemblies.get_cstr_at index = .error e := by simpa using h3
    rw [show ([] : List CStr).length + (m + 1) = m + 1 by simp, ingest_from,
      List.getElem?_eq_getElem i2]
    simp only [h3']
  | nm :: nms, index, (names, bytes, lens), m, h1, h2, h3 => by
    have hl : (nm :: nms).length = nms.length + 1 := rfl
    have i2 : index < assembliesBytes.length := by rw [hl] at h1; omega
    have hn0 : assemblies.get_cstr_at index = .ok nm := h2 0 (by rw [hl]; omega)
    have hlen : uint_of_jsize assembliesBytes[index].length = assembliesBytes[index].length :=
      Nat.mod_eq_of_lt (hb _ (List.getElem_mem i2))
    have hcopy : memcpy_bytes assembliesBytes[index] assembliesBytes[index].length
        = some assembliesBytes[index] := by
      simp [memcpy_bytes]
    rw [show (nm :: nms).length + (m + 1) = (nms.length + (m + 1)) + 1 by rw [hl]; omega,
      ingest_from, List.getElem?_eq_getElem i2]
    simp only [hn0, hlen, hcopy]
    exact ingest_from_exit assemblies assembliesBytes hb e nms (index + 1) _ m
      (by rw [hl] at h1; omega)
      (fun j hj => by
        have h := h2 (j + 1) (by rw [hl]; omega)
        rw [show index + (j + 1) = index + 1 + j by omega] at h
        exact h)
      (by rw [hl, show index + (nms.length + 1) = index + 1 + nms.length by omega] at h3
          exact h3)

/-- What a loop that returns has appended: as many names as iterations, the
buffers and their sizes. -/
theorem ingest_from_ok_shape (assemblies : jstring_array_wrapper)
    (assembliesBytes : List (List Nat)) (hb : ∀ b ∈ assembliesBytes, b.length < UINT_RANGE) :
    ∀ (n index : Nat) (acc r : List CStr × List (List Nat) × List Nat),
    index + n ≤ assembliesBytes.length →
    ingest_from assemblies assembliesBytes n index acc = .ok r →
    r.1.length = acc.1.length + n ∧
    r.2.1 = acc.2.1 ++ (assembliesBytes.drop index).take n ∧
    r.2.2 = acc.2.2 ++ ((assembliesBytes.drop index).take n).map List.length
  | 0, index, acc, r, _, h => by
    simp only [ingest_from] at h
    injection h with h
    subst h
    simp
  | n + 1, index, (names, bytes, lens), r, h1, h => by
    have i2 : index < assembliesBytes.length := by omega
    have hlen : uint_of_jsize assembliesBytes[index].length = assembliesBytes[index].length :=
      Nat.mod_eq_of_lt (hb _ (List.getElem_mem i2))
    have hcopy : memcpy_bytes assembliesBytes[index] assembliesBytes[index].length
        = some assembliesBytes[index] := by
      simp [memcpy_bytes]
    rw [ingest_from, List.getElem?_eq_getElem i2] at h
    cases hlook : assemblies.get_cstr_at index with
    | error e =>
      simp only [hlook] at h
      cases h
    | ok nm =>
      simp only [hlook, hlen, hcopy] at h
      obtain ⟨g1, g2, g3⟩ := ingest_from_ok_shape assemblies assembliesBytes hb n (index + 1) _ r
        (by omega) h
      refine ⟨?_, ?_, ?_⟩
      · rw [g1]; simp; omega
      · rw [g2, List.drop_eq_getElem_cons i2]
        simp only [List.take_succ_cons, List.append_assoc, List.singleton_append]
      · rw [g3, List.drop_eq_getElem_cons i2]
        simp only [List.take_succ_cons, List.map_cons, List.append_assoc,
          List.singleton_append]

theorem ingest_from_spec (assemblies : jstring_array_wrapper) (assembliesBytes : List (List Nat))
    (hb : ∀ b ∈ assembliesBytes, b.length < UINT_RANGE) : ∀ (n index : Nat)
    (acc : List CStr × List (List Nat) × List Nat),
    index + n ≤ assemblies.strings.length → index + n ≤ assembliesBytes.length →
    ingest_from assemblies assembliesBytes n index acc
      = .ok (acc.1 ++ (assemblies.strings.drop index).take n,
             acc.2.1 ++ (assembliesBytes.drop index).take n,
             acc.2.2 ++ ((assembliesBytes.drop index).take n).map List.length)
  | 0, index, acc, _, _ => by simp [ingest_from]
  | n + 1, index, (names, bytes, lens), h1, h2 => by
    have i1 : index < assemblies.strings.length := by omega
    have i2 : index < assembliesBytes.length := by omega
    have hlen : uint_of_jsize assembliesBytes[index].length = assembliesBytes[index].length :=
      Nat.mod_eq_of_lt (hb _ (List.getElem_mem i2))
    have hcopy : memcpy_bytes assembliesBytes[index] assembliesBytes[index].length
        = some assembliesBytes[index] := by
      simp [memcpy_bytes]
    rw [ingest_from, List.getElem?_eq_getElem i2]
    simp only [get_cstr_at_of_lt assemblies i1, hlen, hcopy]
    rw [ingest_from_spec assemblies assembliesBytes hb n (index + 1) _ (by omega) (by omega)]
    rw [List.drop_eq_getElem_cons i1, List.drop_eq_getElem_cons i2]
    simp only [List.take_succ_cons, List.map_cons, List.append_assoc, List.singleton_append,
      strdup_new]

/-- For Java arrays (fewer than `2^31` elements each) with at least as many
names as buffers, `add_or_update_from_java` registers the set built from the
names and the buffers in input order. -/
theorem add_or_update_from_java_eq (sizeof_ptr : Nat) (self : InMemoryAssemblies)
    (domain : MonoDomain) (assemblies : jstring_array_wrapper)
    (assembliesBytes : List (List Nat))
    (hn : assembliesBytes.length < 2 ^ 31) (hb : ∀ b ∈ assembliesBytes, b.length < 2 ^ 31)
    (hnames : assembliesBytes.length ≤ assemblies.strings.length) :
    add_or_update_from_java sizeof_ptr self domain assemblies (some assembliesBytes)
      = add_or_replace_entry sizeof_ptr self
          { domain_id := domain
            assemblies_count := assembliesBytes.length
            names := assemblies.strings.take assembliesBytes.length
            assemblies_bytes := assembliesBytes
            assemblies_bytes_len := assembliesBytes.map List.length } := by
  have hlen : uint_of_jsize assembliesBytes.length = assembliesBytes.length :=
    Nat.mod_eq_of_lt (by rw [UINT_RANGE_eq]; omega)
  have hb' : ∀ b ∈ assembliesBytes, b.length < UINT_RANGE := by
    intro b hbm
    have := hb b hbm
    rw [UINT_RANGE_eq]; omega
  unfold add_or_update_from_java
  simp only [hlen]
  rw [ingest_from_spec assemblies assembliesBytes hb' assembliesBytes.length 0 _
    (by simpa using hnames) (by simp)]
  simp [mono_domain_get_id]

/-- For Java arrays, a call of `add_or_update_from_java` with a buffer array
that returns has registered a set with one name per buffer. -/
theorem add_or_update_from_java_some_ok {sizeof_ptr : Nat} {self self' : InMemoryAssemblies}
    {domain : MonoDomain} {assemblies : jstring_array_wrapper}
    {assembliesBytes : List (List Nat)}
    (hn : assembliesBytes.length < 2 ^ 31) (hb : ∀ b ∈ assembliesBytes, b.length < 2 ^ 31)
    (h : add_or_update_from_java sizeof_ptr self domain assemblies (some assembliesBytes)
      = .ok self') :
    ∃ names : List CStr, names.length = assembliesBytes.length ∧
      add_or_replace_entry sizeof_ptr self
        { domain_id := mono_domain_get_id domain
          assemblies_count := assembliesBytes.length
          names := names
          assemblies_bytes := assembliesBytes
          assemblies_bytes_len := assembliesBytes.map List.length } = .ok self' := by
  have hlen : uint_of_jsize assembliesBytes.length = assembliesBytes.length :=
    Nat.mod_eq_of_lt (by rw [UINT_RANGE_eq]; omega)
  have hb' : ∀ b ∈ assembliesBytes, b.length < UINT_RANGE := by
    intro b hbm
    have := hb b hbm
    rw [UINT_RANGE_eq]; omega
  unfold add_or_update_from_java at h
  simp only [hlen] at h
  cases hing : ingest_from assemblies assembliesBytes assembliesBytes.length 0 ([], [], []) with
  | error e =>
    rw [hing] at h
    cases h
  | ok r =>
    rw [hing] at h
    obtain ⟨g1, g2, g3⟩ := ingest_from_ok_shape assemblies assembliesBytes hb'
      assembliesBytes.length 0 _ r (by omega) hing
    obtain ⟨names, bytes, lens⟩ := r
    simp only [List.nil_append, List.drop_zero, List.take_length, List.length_nil,
      Nat.zero_add] at g1 g2 g3
    subst g2 g3
    exact ⟨names, g1, h⟩

/-- A call of `add_or_update_from_java` that returns has either left the
store alone or registered a set for the domain. -/
theorem add_or_update_from_java_of_ok {sizeof_ptr : Nat} {self self' : InMemoryAssemblies}
    {domain : MonoDomain} {assemblies : jstring_array_wrapper}
    {assembliesBytes : Option (List (List Nat))}
    (h : add_or_update_from_java sizeof_ptr self domain assemblies assembliesBytes = .ok self') :
    (assembliesBytes = none ∧ self' = self) ∨
    ∃ new_entry, assembliesBytes ≠ none ∧ new_entry.domain_id = domain ∧
      add_or_replace_entry sizeof_ptr self new_entry = .ok self' := by
  unfold add_or_update_from_java at h
  cases assembliesBytes with
  | none =>
    left
    simp at h
    exact ⟨rfl, h.symm⟩
  | some bufs =>
    right
    simp only at h
    split at h
    · cases h
    · exact ⟨_, by simp, rfl, h⟩

end InMemoryAssemblies

namespace InMemoryAssemblies

/-! ## Invariants of the reachable states -/

theorem create_valid {capacity : Nat} (h1 : 1 ≤ capacity) (h2 : capacity < UINT_RANGE) :
    Valid (create capacity) := by
  refine ⟨by simp [create], h1, h2, Nat.zero_le _, ?_⟩
  intro p hp
  simp [create] at hp

theorem create_live (capacity : Nat) : (create capacity).live = [] := by
  simp [live, create]

theorem Upserted.keeps_unique {self self' : InMemoryAssemblies} {new_entry : InMemoryAssemblyEntry}
    (h : Upserted self new_entry self') (hu : UniqueDomains self) : UniqueDomains self' := by
  unfold UniqueDomains at hu ⊢
  rcases h with ⟨L1, x, L2, h1, -, h3, h4, -⟩ | ⟨h1, h2, -⟩
  · rw [h4]
    rw [h1] at hu
    simpa [h3] using hu
  · rw [h2, List.map_append, List.nodup_append]
    refine ⟨hu, by simp, ?_⟩
    intro d hd hd'
    simp at hd hd'
    obtain ⟨y, hy, rfl⟩ := hd
    exact h1 y hy hd'

theorem Removed.stays_unique {self self' : InMemoryAssemblies} {d : Int}
    {res : Option InMemoryAssemblyEntry} (h : Removed self d res self')
    (hu : UniqueDomains self) : UniqueDomains self' := by
  unfold UniqueDomains at hu ⊢
  rcases h with ⟨L1, x, L2, h1, -, -, -, h4, -⟩ | ⟨-, -, h3⟩
  · rw [h4]
    rw [h1] at hu
    refine List.Nodup.sublist ?_ hu
    apply List.Sublist.map
    exact List.Sublist.append (List.Sublist.refl L1) (List.sublist_cons_self x L2)
  · rw [h3]; exact hu

/-- After the removal of the first set of domain `d` from a store without
duplicate domains, no stored set has domain `d`. -/
theorem Removed.absent {self self' : InMemoryAssemblies} {d : Int}
    {res : Option InMemoryAssemblyEntry} (h : Removed self d res self')
    (hu : UniqueDomains self) : ∀ y ∈ self'.live, y.domain_id ≠ d := by
  unfold UniqueDomains at hu
  rcases h with ⟨L1, x, L2, h1, h2, h3, -, h4, -⟩ | ⟨h1, -, h3⟩
  · rw [h4]
    rw [h1] at hu
    intro y hy
    rcases List.mem_append.1 hy with hy | hy
    · exact h2 y hy
    · intro hyd
      simp only [List.map_append, List.map_cons] at hu
      have hx := (List.nodup_cons.1 (List.nodup_middle.1 hu)).1
      apply hx
      rw [h3, ← hyd]
      exact List.mem_append_right _ (List.mem_map_of_mem _ hy)
  · rw [h3]; exact h1

/-- One returning call keeps the store valid and free of duplicate
domains. -/
theorem step_invariant {sizeof_ptr : Nat} {self self' : InMemoryAssemblies} {op : Op}
    (hv : Valid self) (hu : UniqueDomains self) (h : step sizeof_ptr self op = .ok self') :
    Valid self' ∧ UniqueDomains self' := by
  cases op with
  | register new_entry =>
    obtain ⟨h1, h2⟩ := add_or_replace_entry_of_ok sizeof_ptr hv h
    exact ⟨h1, h2.keeps_unique hu⟩
  | from_java domain assemblies assembliesBytes =>
    rcases add_or_update_from_java_of_ok h with ⟨-, rfl⟩ | ⟨e, -, -, h'⟩
    · exact ⟨hv, hu⟩
    · obtain ⟨h1, h2⟩ := add_or_replace_entry_of_ok sizeof_ptr hv h'
      exact ⟨h1, h2.keeps_unique hu⟩
  | release domain =>
    obtain ⟨res, h'⟩ := clear_for_domain_of_ok hv h
    obtain ⟨h1, -, h3⟩ := remove_entry_of_ok hv h'
    exact ⟨h1, h3.stays_unique hu⟩

/-- A property kept by every returning call of a sequence holds after the
sequence. -/
theorem run_invariant {sizeof_ptr : Nat} (P : InMemoryAssemblies → Prop) :
    ∀ (ops : List Op) (self self' : InMemoryAssemblies),
    (∀ op ∈ ops, ∀ s s', P s → step sizeof_ptr s op = .ok s' → P s') →
    P self → run sizeof_ptr self ops = .ok self' → P self'
  | [], self, self', _, hP, h => by
    simp [run] at h
    rw [← h]; exact hP
  | op :: ops, self, self', hstep, hP, h => by
    rw [run] at h
    split at h
    · cases h
    · rename_i s1 hs1
      exact run_invariant P ops s1 self' (fun o ho => hstep o (List.mem_cons_of_mem _ ho))
        (hstep op (List.mem_cons_self _ _) self s1 hP hs1) h

theorem Reachable.invariant {sizeof_ptr : Nat} {self : InMemoryAssemblies}
    (h : Reachable sizeof_ptr self) : Valid self ∧ UniqueDomains self := by
  obtain ⟨capacity, ops, h1, h2, hrun⟩ := h
  refine run_invariant (fun s => Valid s ∧ UniqueDomains s) ops (create capacity) self ?_ ?_ hrun
  · intro op _ s s' hs hstep
    exact step_invariant hs.1 hs.2 hstep
  · refine ⟨create_valid h1 h2, ?_⟩
    unfold UniqueDomains
    rw [create_live]
    simp

end InMemoryAssemblies

namespace InMemoryAssemblies

/-! ## Lookups after an update -/

theorem Upserted.mem {self self' : InMemoryAssemblies} {new_entry : InMemoryAssemblyEntry}
    (h : Upserted self new_entry self') : new_entry ∈ self'.live := by
  rcases h with ⟨L1, x, L2, -, -, -, h4, -⟩ | ⟨-, h2, -⟩
  · rw [h4]; simp
  · rw [h2]; simp

theorem Upserted.find_new {self self' : InMemoryAssemblies} {new_entry : InMemoryAssemblyEntry}
    (h : Upserted self new_entry self') (hv' : Valid self') :
    find_entry self' new_entry.domain_id = .ok (some new_entry) := by
  obtain ⟨hs, -⟩ := hv'.shape
  rcases h with ⟨L1, x, L2, -, h2, -, h4, -⟩ | ⟨h1, h2, -⟩
  · rw [h4] at hs
    exact find_entry_hit hs h2 rfl
  · rw [h2] at hs
    exact find_entry_hit hs h1 rfl

theorem Upserted.find_frame {self self' : InMemoryAssemblies} {new_entry : InMemoryAssemblyEntry}
    (h : Upserted self new_entry self') (hv : Valid self) (hv' : Valid self') {d : Int}
    (hd : new_entry.domain_id ≠ d) : find_entry self' d = find_entry self d := by
  rw [find_entry_eq_find hv, find_entry_eq_find hv']
  congr 1
  rcases h with ⟨L1, x, L2, h1, -, h3, h4, -⟩ | ⟨-, h2, -⟩
  · rw [h1, h4]
    have hx : x.domain_id ≠ d := by rw [h3]; exact hd
    simp [List.find?_append, List.find?_cons, hd, hx]
  · rw [h2]
    simp [List.find?_append, List.find?_cons, hd]

theorem Removed.find_rest {self self' : InMemoryAssemblies} {d : Int}
    {res : Option InMemoryAssemblyEntry} (h : Removed self d res self') (hv : Valid self)
    (hv' : Valid self') {d' : Int} (hd : d ≠ d') : find_entry self' d' = find_entry self d' := by
  rw [find_entry_eq_find hv, find_entry_eq_find hv']
  congr 1
  rcases h with ⟨L1, x, L2, h1, -, h3, -, h4, -⟩ | ⟨-, -, h3⟩
  · rw [h1, h4]
    have hx : x.domain_id ≠ d' := by rw [h3]; exact hd
    simp [List.find?_append, List.find?_cons, hx]
  · rw [h3]

theorem Removed.find_gone {self self' : InMemoryAssemblies} {d : Int}
    {res : Option InMemoryAssemblyEntry} (h : Removed self d res self')
    (hu : UniqueDomains self) (hv' : Valid self') : find_entry self' d = .ok none :=
  find_entry_miss hv'.shape.1 (h.absent hu)

/-- Among the indices below `n` at which a list holds `r`, there is a
smallest. -/
theorem first_index_of {α : Type} (l : List α) (r : α) (n : Nat)
    (h : ∃ i, i < n ∧ l[i]? = some r) :
    ∃ i, i < n ∧ l[i]? = some r ∧ ∀ j < i, l[j]? ≠ some r := by
  classical
  refine ⟨Nat.find h, (Nat.find_spec h).1, (Nat.find_spec h).2, ?_⟩
  intro j hj hjr
  exact Nat.find_min h hj ⟨Nat.lt_trans hj (Nat.find_spec h).1, hjr⟩

end InMemoryAssemblies

namespace InMemoryAssemblies

/-! ## Sets registered by host calls -/

theorem Upserted.mem_cases {self self' : InMemoryAssemblies} {new_entry : InMemoryAssemblyEntry}
    (h : Upserted self new_entry self') {y : InMemoryAssemblyEntry} (hy : y ∈ self'.live) :
    y = new_entry ∨ y ∈ self.live := by
  rcases h with ⟨L1, x, L2, h1, -, -, h4, -⟩ | ⟨-, h2, -⟩
  · rw [h4] at hy
    rw [h1]
    rcases List.mem_append.1 hy with hy | hy
    · exact Or.inr (List.mem_append_left _ hy)
    · rcases List.mem_cons.1 hy with rfl | hy
      · exact Or.inl rfl
      · exact Or.inr (List.mem_append_right _ (List.mem_cons_of_mem _ hy))
  · rw [h2] at hy
    rcases List.mem_append.1 hy with hy | hy
    · exact Or.inr hy
    · exact Or.inl (List.mem_singleton.1 hy)

theorem Removed.mem_before {self self' : InMemoryAssemblies} {d : Int}
    {res : Option InMemoryAssemblyEntry} (h : Removed self d res self')
    {y : InMemoryAssemblyEntry} (hy : y ∈ self'.live) : y ∈ self.live := by
  rcases h with ⟨L1, x, L2, h1, -, -, -, h4, -⟩ | ⟨-, -, h3⟩
  · rw [h4] at hy
    rw [h1]
    rcases List.mem_append.1 hy with hy | hy
    · exact List.mem_append_left _ hy
    · exact List.mem_append_right _ (List.mem_cons_of_mem _ hy)
  · rw [h3] at hy; exact hy

/-- Every set of a store built by host calls alone (bulk registrations from
Java arrays and releases) satisfies the data-model invariant. -/
theorem host_sets_wellFormed {sizeof_ptr capacity : Nat} {ops : List Op}
    {self : InMemoryAssemblies} (h1 : 1 ≤ capacity) (h2 : capacity < UINT_RANGE)
    (hops : ∀ op ∈ ops, op.fromHost)
    (hrun : run sizeof_ptr (create capacity) ops = .ok self) :
    self.Valid ∧ ∀ x ∈ self.live, x.WellFormed := by
  refine run_invariant (fun s => s.Valid ∧ ∀ x ∈ s.live, x.WellFormed) ops (create capacity) self
    ?_ ⟨create_valid h1 h2, by rw [create_live]; simp⟩ hrun
  intro op hop s s' ⟨hs, hwf⟩ hstep
  have hhost := hops op hop
  cases op with
  | register new_entry => exact absurd hhost (by simp [Op.fromHost])
  | from_java domain assemblies assembliesBytes =>
    cases assembliesBytes with
    | none =>
      have : s' = s := by
        simp [step, add_or_update_from_java] at hstep
        exact hstep.symm
      rw [this]; exact ⟨hs, hwf⟩
    | some bufs =>
      obtain ⟨hn, hb⟩ := hhost bufs rfl
      have hstep' : add_or_update_from_java sizeof_ptr s domain assemblies (some bufs)
          = .ok s' := hstep
      obtain ⟨names, hnl, hadd⟩ := add_or_update_from_java_some_ok hn hb hstep'
      obtain ⟨v', u'⟩ := add_or_replace_entry_of_ok sizeof_ptr hs hadd
      refine ⟨v', ?_⟩
      intro y hy
      rcases u'.mem_cases hy with rfl | hy
      · refine ⟨hnl, rfl, rfl, ?_⟩
        intro n hn'
        simp only [List.mem_map] at hn'
        obtain ⟨b, hbm, rfl⟩ := hn'
        exact hb b hbm
      · exact hwf y hy
  | release domain =>
    obtain ⟨res, hrem⟩ := clear_for_domain_of_ok hs hstep
    obtain ⟨v', -, r'⟩ := remove_entry_of_ok hs hrem
    exact ⟨v', fun y hy => hwf y (r'.mem_before hy)⟩

end InMemoryAssemblies

/-! ## Full stores -/

theorem full_store_shape (n : Nat) :
    (Sample.full_store n).Shape ((List.range n).map (fun (i : Nat) => Sample.bare (Int.ofNat i))) [] := by
  constructor
  · show (List.range n).map (fun (i : Nat) => some (Sample.bare (Int.ofNat i))) = _
    rw [List.append_nil, List.map_map]
    rfl
  · show _ = n
    simp

theorem full_store_valid {n : Nat} (h1 : 1 ≤ n) (h2 : n < UINT_RANGE) :
    (Sample.full_store n).Valid :=
  (full_store_shape n).valid (by show _ = n; simp) h1 h2

theorem full_store_domains (n : Nat) :
    ∀ y ∈ (Sample.full_store n).live, y.domain_id ≠ (Sample.bare (-1)).domain_id := by
  rw [(full_store_shape n).live_eq]
  intro y hy
  simp only [List.mem_map, List.mem_range] at hy
  obtain ⟨i, -, rfl⟩ := hy
  show Int.ofNat i ≠ -1
  have : (0 : Int) ≤ Int.ofNat i := Int.ofNat_nonneg i
  omega

theorem full_store_not_fits (sizeof_ptr : Nat) {n : Nat} (h : UINT_RANGE ≤ n * 2) :
    ¬ (Sample.full_store n).AddFits sizeof_ptr := by
  intro hfit
  rcases hfit with h1 | ⟨h1, -⟩
  · exact absurd h1 (Nat.lt_irrefl n)
  · have h1' : n * 2 < UINT_RANGE := h1
    omega

/-- The stored sets of a valid store sit in the slots below `length`. -/
theorem InMemoryAssemblies.Valid.slot {self : InMemoryAssemblies} (hv : self.Valid) {i : Nat}
    (hi : i < self.live.length) : self.entries[i]? = some (some self.live[i]) :=
  slot_of_shape _ _ _ hv.shape.1.1 i hi

/-! ## Sequences of insertions -/

namespace InMemoryAssemblies

theorem run_append (sizeof_ptr : Nat) : ∀ (a b : List Op) (self : InMemoryAssemblies),
    run sizeof_ptr self (a ++ b)
      = match run sizeof_ptr self a with
        | .error e => .error e
        | .ok s => run sizeof_ptr s b
  | [], b, self => by simp [run]
  | op :: a, b, self => by
    rw [List.cons_append, run, run]
    cases step sizeof_ptr self op with
    | error e => rfl
    | ok s => exact run_append sizeof_ptr a b s

/-- Registering sets of new, pairwise distinct domains while slots are free
appends them one after the other and leaves the capacity alone. -/
theorem run_register_free (sizeof_ptr : Nat) : ∀ (es : List InMemoryAssemblyEntry)
    (self : InMemoryAssemblies), self.Valid → self.length + es.length ≤ self.capacity →
    ((self.live ++ es).map (fun e => e.domain_id)).Nodup →
    ∃ self', run sizeof_ptr self (es.map Op.register) = .ok self' ∧ self'.Valid ∧
      self'.live = self.live ++ es ∧ self'.capacity = self.capacity ∧
      self'.length = self.length + es.length
  | [], self, hv, _, _ => ⟨self, rfl, hv, by simp, rfl, rfl⟩
  | e :: es, self, hv, hroom, hnd => by
    have hmiss : ∀ y ∈ self.live, y.domain_id ≠ e.domain_id := by
      intro y hy hyd
      rw [List.map_append, List.nodup_append] at hnd
      exact hnd.2.2 (List.mem_map_of_mem _ hy)
        (by rw [hyd]; exact List.mem_map_of_mem _ (List.mem_cons_self _ _))
    have hfree : self.length < self.capacity := by
      simp only [List.length_cons] at hroom
      omega
    obtain ⟨s1, a1, v1, l1, n1, c1⟩ := add_entry_ok sizeof_ptr e hv (Or.inl hfree)
    rw [if_pos hfree] at c1
    have hstep : step sizeof_ptr self (Op.register e) = .ok s1 := by
      show add_or_replace_entry sizeof_ptr self e = _
      rw [add_or_replace_entry_miss sizeof_ptr hv.shape.1 hmiss]
      exact a1
    obtain ⟨s2, a2, v2, l2, c2, n2⟩ := run_register_free sizeof_ptr es s1 v1
      (by simp only [List.length_cons] at hroom; omega)
      (by rw [l1, List.append_assoc]; exact hnd)
    refine ⟨s2, ?_, v2, ?_, by rw [c2, c1], ?_⟩
    · rw [List.map_cons, run, hstep]
      exact a2
    · rw [l2, l1, List.append_assoc]
      rfl
    · rw [n2, n1, List.length_cons]
      omega

end InMemoryAssemblies

/-! ## Sets found in stores built by host calls -/

namespace InMemoryAssemblies

/-- The set that `find_entry` returns on a valid store is one of the stored
sets. -/
theorem find_entry_mem {self : InMemoryAssemblies} (hv : self.Valid) {d : Int}
    {S : InMemoryAssemblyEntry} (h : self.find_entry d = .ok (some S)) : S ∈ self.live := by
  rw [find_entry_eq_find hv d] at h
  injection h with h
  exact List.mem_of_find?_eq_some h

/-- In a store built by host calls alone, every set that `find_entry` returns
satisfies the data-model invariant: its arrays have `assemblies_count`
elements and every declared length is the size of its buffer, below `2^31`. -/
theorem host_found_wellFormed {sizeof_ptr capacity : Nat} {ops : List Op}
    {self : InMemoryAssemblies} (h1 : 1 ≤ capacity) (h2 : capacity < UINT_RANGE)
    (hops : ∀ op ∈ ops, op.fromHost)
    (hrun : run sizeof_ptr (create capacity) ops = .ok self) {d : Int}
    {S : InMemoryAssemblyEntry} (hfind : self.find_entry d = .ok (some S)) : S.WellFormed := by
  obtain ⟨hv, hwf⟩ := host_sets_wellFormed h1 h2 hops hrun
  exact hwf S (find_entry_mem hv hfind)

end InMemoryAssemblies

/-! ## Names past the end of the name array -/

namespace InMemoryAssemblies

/-- The lookups of the names of the array, followed by lookups past its end
that return the strings `extra`. -/
theorem get_cstr_at_append (assemblies : jstring_array_wrapper) (extra : List CStr)
    (hlook : ∀ j (hj : j < extra.length),
      assemblies.past_end (assemblies.strings.length + j) = .ok extra[j]) :
    ∀ j (hj : j < (assemblies.strings ++ extra).length),
      assemblies.get_cstr_at (0 + j) = .ok (assemblies.strings ++ extra)[j] := by
  intro j hj
  rw [Nat.zero_add]
  by_cases hlt : j < assemblies.strings.length
  · rw [get_cstr_at_of_lt assemblies hlt, List.getElem_append_left]
  · have hge : assemblies.strings.length ≤ j := by omega
    have hj' : j - assemblies.strings.length < extra.length := by
      rw [List.length_append] at hj
      omega
    have h := hlook (j - assemblies.strings.length) hj'
    rw [show assemblies.strings.length + (j - assemblies.strings.length) = j by omega] at h
    rw [get_cstr_at_of_le assemblies hge, h, List.getElem_append_right hge]

/-- For Java arrays: when the lookups past the end of the name array return
strings for all remaining buffers, `add_or_update_from_java` registers a set
named by the names of the array followed by those strings. -/
theorem add_or_update_from_java_past_end (sizeof_ptr : Nat) (self : InMemoryAssemblies)
    (domain : MonoDomain) (assemblies : jstring_array_wrapper)
    (assembliesBytes : List (List Nat))
    (hn : assembliesBytes.length < 2 ^ 31) (hb : ∀ b ∈ assembliesBytes, b.length < 2 ^ 31)
    (extra : List CStr)
    (hlen : assemblies.strings.length + extra.length = assembliesBytes.length)
    (hlook : ∀ j (hj : j < extra.length),
      assemblies.past_end (assemblies.strings.length + j) = .ok extra[j]) :
    add_or_update_from_java sizeof_ptr self domain assemblies (some assembliesBytes)
      = add_or_replace_entry sizeof_ptr self
          { domain_id := mono_domain_get_id domain
            assemblies_count := assembliesBytes.length
            names := assemblies.strings ++ extra
            assemblies_bytes := assembliesBytes
            assemblies_bytes_len := assembliesBytes.map List.length } := by
  have hl : uint_of_jsize assembliesBytes.length = assembliesBytes.length :=
    Nat.mod_eq_of_lt (by rw [UINT_RANGE_eq]; omega)
  have hb' : ∀ b ∈ assembliesBytes, b.length < UINT_RANGE := by
    intro b hbm
    have := hb b hbm
    rw [UINT_RANGE_eq]; omega
  have hnl : (assemblies.strings ++ extra).length = assembliesBytes.length := by
    rw [List.length_append]; exact hlen
  have key := ingest_from_names assemblies assembliesBytes hb' (assemblies.strings ++ extra) 0
    ([], [], []) (by omega) (get_cstr_at_append assemblies extra hlook)
  rw [hnl] at key
  unfold add_or_update_from_java
  simp only [hl]
  rw [key]
  simp

/-- For Java arrays with fewer names than buffers: when a lookup past the
end of the name array exits, after lookups past the end that returned the
strings `extra`, `add_or_update_from_java` exits the same way. -/
theorem add_or_update_from_java_exit (sizeof_ptr : Nat) (self : InMemoryAssemblies)
    (domain : MonoDomain) (assemblies : jstring_array_wrapper)
    (assembliesBytes : List (List Nat))
    (hn : assembliesBytes.length < 2 ^ 31) (hb : ∀ b ∈ assembliesBytes, b.length < 2 ^ 31)
    (extra : List CStr) (e : Abort)
    (hlen : assemblies.strings.length + extra.length < assembliesBytes.length)
    (hlook : ∀ j (hj : j < extra.length),
      assemblies.past_end (assemblies.strings.length + j) = .ok extra[j])
    (hexit : assemblies.past_end (assemblies.strings.length + extra.length) = .error e) :
    add_or_update_from_java sizeof_ptr self domain assemblies (some assembliesBytes)
      = .error e := by
  have hl : uint_of_jsize assembliesBytes.length = assembliesBytes.length :=
    Nat.mod_eq_of_lt (by rw [UINT_RANGE_eq]; omega)
  have hb' : ∀ b ∈ assembliesBytes, b.length < UINT_RANGE := by
    intro b hbm
    have := hb b hbm
    rw [UINT_RANGE_eq]; omega
  have hnl : (assemblies.strings ++ extra).length
      = assemblies.strings.length + extra.length := List.length_append _ _
  have key := ingest_from_exit assemblies assembliesBytes hb' e (assemblies.strings ++ extra) 0
    ([], [], []) (assembliesBytes.length - (assemblies.strings ++ extra).length - 1)
    (by omega) (get_cstr_at_append assemblies extra hlook)
    (by rw [Nat.zero_add, hnl, get_cstr_at_of_le assemblies (by omega)]; exact hexit)
  rw [show (assemblies.strings ++ extra).length
      + (assembliesBytes.length - (assemblies.strings ++ extra).length - 1 + 1)
      = assembliesBytes.length by omega] at key
  unfold add_or_update_from_java
  simp only [hl]
  rw [key]

end InMemoryAssemblies

/-! ## The scan of one set -/

namespace InMemoryAssemblies

/-- The scan of a set whose three arrays have `assemblies_count` elements
stops at the first entry named `r`; when the declared length of that entry is
the size of its buffer and below `2^31`, the managed loader is called with a
copy of the buffer and two null arguments. -/
theorem load_scan_hit_at {entry : InMemoryAssemblyEntry} {r : CStr} {i L : Nat}
    {bytes : List Nat}
    (hnames : entry.names.length = entry.assemblies_count)
    (hbytes : entry.assemblies_bytes.length = entry.assemblies_count)
    (hlens : entry.assemblies_bytes_len.length = entry.assemblies_count)
    (hi : i < entry.assemblies_count) (hname : entry.names[i]? = some r)
    (hmin : ∀ j < i, entry.names[j]? ≠ some r)
    (hL : entry.assemblies_bytes_len[i]? = some L)
    (hB : entry.assemblies_bytes[i]? = some bytes)
    (hsize : bytes.length = L) (hjsize : L < 2 ^ 31) :
    load_scan entry r entry.assemblies_count 0
      = .ok (some { byteArray := bytes, arg1 := none, arg2 := none }) := by
  have hsplit : entry.assemblies_count = i + ((entry.assemblies_count - i - 1) + 1) := by omega
  rw [hsplit, load_scan_skip entry r i 0 _ (by
    intro k hk
    rw [Nat.zero_add]
    have k1 : k < entry.names.length := by omega
    have k2 : k < entry.assemblies_bytes.length := by omega
    have k3 : k < entry.assemblies_bytes_len.length := by omega
    refine ⟨entry.names[k], entry.assemblies_bytes[k], entry.assemblies_bytes_len[k],
      List.getElem?_eq_getElem k1, List.getElem?_eq_getElem k2, List.getElem?_eq_getElem k3, ?_⟩
    intro heq
    exact hmin k hk (by rw [List.getElem?_eq_getElem k1, heq])), Nat.zero_add]
  have hcmp : strcmp r r = 0 := (strcmp_eq_zero_iff r r).2 rfl
  subst hsize
  simp [load_scan, hname, hB, hL, hcmp, copy_into_new_array bytes hjsize]

/-- The conversion of an `unsigned int` to `int` keeps the value exactly
below `2^31`. -/
theorem int_of_uint_eq_iff {L : Nat} (hL : L < UINT_RANGE) :
    int_of_uint L = (L : Int) ↔ L < 2 ^ 31 := by
  constructor
  · intro h
    by_contra hge
    unfold int_of_uint at h
    rw [Nat.mod_eq_of_lt hL, if_neg hge, UINT_RANGE_eq] at h
    omega
  · exact int_of_uint_of_lt

end InMemoryAssemblies

/-! ## The claims -/

open InMemoryAssemblies

/-- C1: for every valid store, every domain `D` and every bulk transfer whose
`names` (the strings of the name wrapper, whatever its lookup past the end
gives) and `raw_buffers` have the same length `n` (Java arrays, so `n` and
every buffer size are below `2^31`), if the insertion does not run into the
overflow checks then `add_or_update_from_java` returns, and afterwards
`find_entry` for `D` returns a set with `assemblies_count = n` whose `i`-th
name, buffer and declared length are, for every `i < n`, the `i`-th input
name, the `i`-th input buffer and that buffer's size. -/
theorem C1_register_then_find (sizeof_ptr : Nat) (self : InMemoryAssemblies) (D : MonoDomain)
    (names : jstring_array_wrapper) (raw_buffers : List (List Nat)) (n : Nat)
    (hv : self.Valid) (hnames : names.strings.length = n) (hbufs : raw_buffers.length = n)
    (hn : n < 2 ^ 31) (hb : ∀ b ∈ raw_buffers, b.length < 2 ^ 31)
    (hfit : (∃ x ∈ self.live, x.domain_id = mono_domain_get_id D) ∨ self.AddFits sizeof_ptr) :
    ∃ self' S,
      self.add_or_update_from_java sizeof_ptr D names (some raw_buffers) = .ok self' ∧
      self'.find_entry (mono_domain_get_id D) = .ok (some S) ∧
      S.assemblies_count = n ∧
      ∀ i, i < n → ∃ name buffer, names.strings[i]? = some name ∧
        raw_buffers[i]? = some buffer ∧
        S.names[i]? = some name ∧ S.assemblies_bytes[i]? = some buffer ∧
        S.assemblies_bytes_len[i]? = some buffer.length := by
  subst hbufs
  rw [add_or_update_from_java_eq sizeof_ptr self D names raw_buffers hn hb (by omega)]
  obtain ⟨s', h1, h2, h3⟩ := add_or_replace_entry_spec sizeof_ptr hv
    { domain_id := D
      assemblies_count := raw_buffers.length
      names := names.strings.take raw_buffers.length
      assemblies_bytes := raw_buffers
      assemblies_bytes_len := raw_buffers.map List.length } hfit
  refine ⟨s', _, h1, h3.find_new h2, rfl, ?_⟩
  intro i hi
  have hi' : i < names.strings.length := by omega
  refine ⟨names.strings[i], raw_buffers[i], List.getElem?_eq_getElem hi',
    List.getElem?_eq_getElem hi, ?_, List.getElem?_eq_getElem hi, ?_⟩
  · show (names.strings.take raw_buffers.length)[i]? = _
    rw [← hnames, List.take_length, List.getElem?_eq_getElem hi']
  · show (raw_buffers.map List.length)[i]? = _
    rw [List.getElem?_map, List.getElem?_eq_getElem hi]
    rfl

/-- C1 at domain 7 with the names `A.dll`, `B.dll` and the buffers `b1`, `b2`,
on an empty store of capacity 1. -/
theorem C1_register_then_find_witness :
    (create 1).Valid ∧
    ∃ self' S,
      (create 1).add_or_update_from_java 8 7 Sample.names_AB
        (some [Sample.b1, Sample.b2]) = .ok self' ∧
      self'.find_entry (mono_domain_get_id 7) = .ok (some S) ∧
      S.assemblies_count = 2 ∧
      ∀ i, i < 2 → ∃ name buffer, Sample.names_AB.strings[i]? = some name ∧
        [Sample.b1, Sample.b2][i]? = some buffer ∧
        S.names[i]? = some name ∧ S.assemblies_bytes[i]? = some buffer ∧
        S.assemblies_bytes_len[i]? = some buffer.length :=
  ⟨by decide,
   C1_register_then_find 8 (create 1) 7 Sample.names_AB [Sample.b1, Sample.b2] 2
    (by decide) rfl rfl (by decide) (by decide) (by decide)⟩

/-- C2: whenever `find_entry` for `D` returns a well-formed set `S` and `i` is
the smallest index below `assemblies_count` whose name equals the requested
name `r`, `load_assembly_from_memory` calls the managed loader with a byte
array equal to the bytes of entry `i` (whose declared length is their number)
and with two null arguments; a later entry of the same name is never used. -/
theorem C2_load_first_match (self : InMemoryAssemblies) (D : MonoDomain)
    (S : InMemoryAssemblyEntry) (r : MonoAssemblyName) (i : Nat)
    (hfind : self.find_entry (mono_domain_get_id D) = .ok (some S)) (hwf : S.WellFormed)
    (hi : i < S.assemblies_count) (hname : S.names[i]? = some r)
    (hmin : ∀ j < i, S.names[j]? ≠ some r) :
    ∃ bytes, S.assemblies_bytes[i]? = some bytes ∧
      S.assemblies_bytes_len[i]? = some bytes.length ∧
      self.load_assembly_from_memory D r
        = .ok (some { byteArray := bytes, arg1 := none, arg2 := none }) := by
  obtain ⟨b, h1, h2, h3⟩ := load_scan_hit hwf hi hname hmin
  refine ⟨b, h1, h2, ?_⟩
  rw [load_assembly_from_memory_found hfind]
  exact h3

/-- C2 at domain 7 with names `A.dll`, `B.dll` and buffers `b1`, `b2`: loading
`A.dll` uses exactly `b1`. -/
theorem C2_load_first_match_witness :
    Sample.store7.find_entry (mono_domain_get_id 7) = .ok (some Sample.set7) ∧
    Sample.set7.WellFormed ∧
    ∃ bytes, Sample.set7.assemblies_bytes[0]? = some bytes ∧
      Sample.set7.assemblies_bytes_len[0]? = some bytes.length ∧
      Sample.store7.load_assembly_from_memory 7 Sample.A_dll
        = .ok (some { byteArray := bytes, arg1 := none, arg2 := none }) :=
  ⟨by decide, by decide,
   C2_load_first_match Sample.store7 7 Sample.set7 Sample.A_dll 0 (by decide) (by decide)
    (by decide) (by decide) (by intro j hj; omega)⟩

/-- C3: on a valid store whose set for `D`, if any, is well-formed,
`load_assembly_from_memory` returns `nullptr` without calling the managed
loader exactly when `find_entry` for `D` is absent or no name of the found set
equals the requested name; the comparison is exact, so a name that agrees with
the requested one up to letter case, without being equal to it, does not
match. -/
theorem C3_not_found_iff (self : InMemoryAssemblies) (D : MonoDomain) (r : MonoAssemblyName)
    (hv : self.Valid)
    (hwf : ∀ S, self.find_entry (mono_domain_get_id D) = .ok (some S) → S.WellFormed) :
    (self.load_assembly_from_memory D r = .ok none ↔
      (self.find_entry (mono_domain_get_id D) = .ok none ∨
        ∃ S, self.find_entry (mono_domain_get_id D) = .ok (some S) ∧
          ∀ i, i < S.assemblies_count → S.names[i]? ≠ some r)) ∧
    (∀ name : CStr, name.chars.map Char.toLower = r.chars.map Char.toLower → name ≠ r →
      strcmp (mono_assembly_name_get_name r) name ≠ 0) := by
  refine ⟨?_, ?_⟩
  · have hfe := find_entry_eq_find hv (mono_domain_get_id D)
    cases hopt : self.live.find? (fun x => decide (x.domain_id = mono_domain_get_id D)) with
    | none =>
      rw [hopt] at hfe
      rw [load_assembly_from_memory_absent hfe]
      simp [hfe]
    | some S =>
      rw [hopt] at hfe
      have hS := hwf S hfe
      rw [load_assembly_from_memory_found hfe]
      by_cases hex : ∃ i, i < S.assemblies_count ∧ S.names[i]? = some r
      · obtain ⟨i, hi, hname, hmin⟩ := first_index_of S.names r S.assemblies_count hex
        obtain ⟨b, -, -, hload⟩ := load_scan_hit hS hi hname hmin
        rw [hload]
        constructor
        · intro h; cases h
        · rintro (h | ⟨S', h1, h2⟩)
          · rw [hfe] at h; cases h
          · rw [hfe] at h1
            injection h1 with h1
            injection h1 with h1
            subst h1
            exact absurd hname (h2 i hi)
      · push_neg at hex
        have hnot : r ∉ S.names := by
          intro hmem
          obtain ⟨k, hk, hkr⟩ := List.getElem_of_mem hmem
          exact hex k (by rw [← hS.1]; exact hk) (by rw [List.getElem?_eq_getElem hk, hkr])
        rw [load_scan_miss hS hnot]
        constructor
        · intro _
          exact Or.inr ⟨S, hfe, hex⟩
        · intro _; rfl
  · intro name _ hne
    rw [Ne, mono_assembly_name_get_name, strcmp_eq_zero_iff]
    exact fun h => hne h.symm

/-- C3 at the store holding the set of domain 7 and the requested name
`a.dll`: the lookup is not found although `A.dll` is registered. -/
theorem C3_not_found_iff_witness :
    Sample.store7.Valid ∧
    Sample.store7.load_assembly_from_memory 7 Sample.a_dll = .ok none ∧
    strcmp Sample.a_dll Sample.A_dll ≠ 0 :=
  have h := C3_not_found_iff Sample.store7 7 Sample.a_dll (by decide) (by
    intro S hS
    have hf : Sample.store7.find_entry (mono_domain_get_id 7) = .ok (some Sample.set7) := by
      decide
    rw [hf] at hS
    injection hS with hS
    injection hS with hS
    subst hS
    decide)
  ⟨by decide,
   h.1.2 (Or.inr ⟨Sample.set7, by decide, by decide⟩),
   h.2 Sample.A_dll (by decide) (by decide)⟩

/-- C4: on every valid store, for every domain `D`, well-formed sets `S_old`
and `S_new` of domain `D` and every name `r` that occurs in `S_old` but not in
`S_new` (the first registration not running into the overflow checks): after
registering `S_old`, loading `r` for `D` calls the managed loader; after then
registering `S_new`, `find_entry` for `D` returns `S_new` and loading `r` for
`D` returns `nullptr`. -/
theorem C4_reregister_replaces (sizeof_ptr : Nat) (self : InMemoryAssemblies) (D : MonoDomain)
    (S_old S_new : InMemoryAssemblyEntry) (r : MonoAssemblyName)
    (hv : self.Valid)
    (hold : S_old.domain_id = mono_domain_get_id D) (hnew : S_new.domain_id = mono_domain_get_id D)
    (hwf_old : S_old.WellFormed) (hwf_new : S_new.WellFormed)
    (hfit : (∃ x ∈ self.live, x.domain_id = mono_domain_get_id D) ∨ self.AddFits sizeof_ptr)
    (hr_old : r ∈ S_old.names) (hr_new : r ∉ S_new.names) :
    ∃ s1 s2 call,
      self.add_or_replace_entry sizeof_ptr S_old = .ok s1 ∧
      s1.load_assembly_from_memory D r = .ok (some call) ∧
      s1.add_or_replace_entry sizeof_ptr S_new = .ok s2 ∧
      s2.find_entry (mono_domain_get_id D) = .ok (some S_new) ∧
      s2.load_assembly_from_memory D r = .ok none := by
  obtain ⟨s1, a1, v1, u1⟩ := add_or_replace_entry_spec sizeof_ptr hv S_old (by rw [hold]; exact hfit)
  obtain ⟨s2, a2, v2, u2⟩ := add_or_replace_entry_spec sizeof_ptr v1 S_new
    (Or.inl ⟨S_old, u1.mem, by rw [hold, hnew]⟩)
  have f1 : s1.find_entry (mono_domain_get_id D) = .ok (some S_old) := by
    rw [← hold]; exact u1.find_new v1
  have f2 : s2.find_entry (mono_domain_get_id D) = .ok (some S_new) := by
    rw [← hnew]; exact u2.find_new v2
  obtain ⟨k, hk, hkr⟩ := List.getElem_of_mem hr_old
  obtain ⟨i, hi, hname, hmin⟩ := first_index_of S_old.names r S_old.assemblies_count
    ⟨k, by rw [← hwf_old.1]; exact hk, by rw [List.getElem?_eq_getElem hk, hkr]⟩
  obtain ⟨b, -, -, hload⟩ := load_scan_hit hwf_old hi hname hmin
  refine ⟨s1, s2, { byteArray := b, arg1 := none, arg2 := none }, a1, ?_, a2, f2, ?_⟩
  · rw [load_assembly_from_memory_found f1]
    exact hload
  · rw [load_assembly_from_memory_found f2]
    exact load_scan_miss hwf_new hr_new

/-- C4 on an empty store of capacity 1, domain 7: `A.dll` is in the first set
and not in the second. -/
theorem C4_reregister_replaces_witness :
    (create 1).Valid ∧ Sample.A_dll ∈ Sample.set7.names ∧ Sample.A_dll ∉ Sample.set7_new.names ∧
    ∃ s1 s2 call,
      (create 1).add_or_replace_entry 8 Sample.set7 = .ok s1 ∧
      s1.load_assembly_from_memory 7 Sample.A_dll = .ok (some call) ∧
      s1.add_or_replace_entry 8 Sample.set7_new = .ok s2 ∧
      s2.find_entry (mono_domain_get_id 7) = .ok (some Sample.set7_new) ∧
      s2.load_assembly_from_memory 7 Sample.A_dll = .ok none :=
  ⟨by decide, by decide, by decide,
   C4_reregister_replaces 8 (create 1) 7 Sample.set7 Sample.set7_new Sample.A_dll
    (by decide) (by decide) (by decide) (by decide) (by decide) (by decide) (by decide)
    (by decide)⟩

/-- C5: in every store state reachable from the empty store, releasing `D`
(`clear_for_domain`, that is `remove_entry`) returns, and afterwards
`find_entry` for `D` is absent and `load_assembly_from_memory` for `D` returns
`nullptr` for every name. -/
theorem C5_release_then_absent (sizeof_ptr : Nat) (self : InMemoryAssemblies) (D : MonoDomain)
    (hreach : self.Reachable sizeof_ptr) :
    ∃ res self',
      self.remove_entry (mono_domain_get_id D) = .ok (res, self') ∧
      self.clear_for_domain D = .ok self' ∧
      self'.find_entry (mono_domain_get_id D) = .ok none ∧
      ∀ r, self'.load_assembly_from_memory D r = .ok none := by
  obtain ⟨hv, hu⟩ := hreach.invariant
  obtain ⟨res, s', h1, h2, -, h4⟩ := remove_entry_spec hv (mono_domain_get_id D)
  have hf := h4.find_gone hu h2
  exact ⟨res, s', h1, clear_for_domain_eq h1, hf,
    fun r => load_assembly_from_memory_absent hf r⟩

/-- C5 at the store reached by registering a set for domain 7 and one for
domain 9, releasing domain 7. -/
theorem C5_release_then_absent_witness :
    Sample.store79.Reachable 8 ∧
    ∃ res self',
      Sample.store79.remove_entry (mono_domain_get_id 7) = .ok (res, self') ∧
      Sample.store79.clear_for_domain 7 = .ok self' ∧
      self'.find_entry (mono_domain_get_id 7) = .ok none ∧
      ∀ r, self'.load_assembly_from_memory 7 r = .ok none :=
  have hreach : Sample.store79.Reachable 8 :=
    ⟨1, [.register Sample.set7, .register Sample.set9], by decide, by decide, by decide⟩
  ⟨hreach, C5_release_then_absent 8 Sample.store79 7 hreach⟩

/-- C6: release is idempotent. In every reachable store state, releasing `D`
a second time returns the very store the first release produced (same backing
array, same `length`, same `capacity`); and when no stored set has domain `D`,
`remove_entry` returns `nullptr` and the store is unchanged. -/
theorem C6_release_idempotent (sizeof_ptr : Nat) (self : InMemoryAssemblies) (D : MonoDomain)
    (hreach : self.Reachable sizeof_ptr) :
    (∃ s1, self.clear_for_domain D = .ok s1 ∧ s1.clear_for_domain D = .ok s1) ∧
    ((∀ x ∈ self.live, x.domain_id ≠ mono_domain_get_id D) →
      self.remove_entry (mono_domain_get_id D) = .ok (none, self) ∧
      self.clear_for_domain D = .ok self) := by
  obtain ⟨hv, hu⟩ := hreach.invariant
  constructor
  · obtain ⟨res, s', h1, h2, -, h4⟩ := remove_entry_spec hv (mono_domain_get_id D)
    have h5 := remove_entry_miss h2.shape.1 (h4.absent hu)
    exact ⟨s', clear_for_domain_eq h1, clear_for_domain_eq h5⟩
  · intro habs
    have h5 := remove_entry_miss hv.shape.1 habs
    exact ⟨h5, clear_for_domain_eq h5⟩

/-- C6 at the store holding sets for the domains 7 and 9, released for domain
9 twice, and released for domain 5, which has no set. -/
theorem C6_release_idempotent_witness :
    Sample.store79.Reachable 8 ∧
    (∃ s1, Sample.store79.clear_for_domain 9 = .ok s1 ∧ s1.clear_for_domain 9 = .ok s1) ∧
    Sample.store79.remove_entry (mono_domain_get_id 5) = .ok (none, Sample.store79) :=
  have hreach : Sample.store79.Reachable 8 :=
    ⟨2, [.register Sample.set7, .from_java 9 Sample.names_C (some [Sample.b1])],
      by decide, by decide, by decide⟩
  ⟨hreach, (C6_release_idempotent 8 Sample.store79 9 hreach).1,
    ((C6_release_idempotent 8 Sample.store79 5 hreach).2 (by decide)).1⟩

/-- C7: on every valid store and for domains `D1 ≠ D2`, registering or
re-registering a set for `D1` (which returns, unless it takes the fatal exit
of the overflow check) and releasing `D1` leave the result of `find_entry`
for `D2`, and of `load_assembly_from_memory` for `D2` and every name, as it
was. -/
theorem C7_other_domain_untouched (sizeof_ptr : Nat) (self : InMemoryAssemblies)
    (D1 D2 : MonoDomain) (hv : self.Valid)
    (hne : mono_domain_get_id D1 ≠ mono_domain_get_id D2) :
    (∀ new_entry : InMemoryAssemblyEntry, new_entry.domain_id = mono_domain_get_id D1 →
      self.add_or_replace_entry sizeof_ptr new_entry = .error Abort.fatal ∨
      ∃ self', self.add_or_replace_entry sizeof_ptr new_entry = .ok self' ∧
        self'.find_entry (mono_domain_get_id D2) = self.find_entry (mono_domain_get_id D2) ∧
        ∀ r, self'.load_assembly_from_memory D2 r = self.load_assembly_from_memory D2 r) ∧
    (∃ res self', self.remove_entry (mono_domain_get_id D1) = .ok (res, self') ∧
      self.clear_for_domain D1 = .ok self' ∧
      self'.find_entry (mono_domain_get_id D2) = self.find_entry (mono_domain_get_id D2) ∧
      ∀ r, self'.load_assembly_from_memory D2 r = self.load_assembly_from_memory D2 r) := by
  constructor
  · intro new_entry hd
    rcases add_or_replace_entry_total sizeof_ptr hv new_entry with h | ⟨s', h1, h2, h3⟩
    · exact Or.inl h
    · have hf := h3.find_frame hv h2 (show new_entry.domain_id ≠ mono_domain_get_id D2 by
        rw [hd]; exact hne)
      exact Or.inr ⟨s', h1, hf, fun r => load_assembly_from_memory_congr hf r⟩
  · obtain ⟨res, s', h1, h2, -, h4⟩ := remove_entry_spec hv (mono_domain_get_id D1)
    have hf := h4.find_rest hv h2 hne
    exact ⟨res, s', h1, clear_for_domain_eq h1, hf,
      fun r => load_assembly_from_memory_congr hf r⟩

/-- C7 at the store holding sets for the domains 7 and 9: releasing domain 7,
and re-registering it, leave the lookups for domain 9 as they were. -/
theorem C7_other_domain_untouched_witness :
    Sample.store79.Valid ∧ mono_domain_get_id 7 ≠ mono_domain_get_id 9 ∧
    (∃ res self', Sample.store79.remove_entry (mono_domain_get_id 7) = .ok (res, self') ∧
      Sample.store79.clear_for_domain 7 = .ok self' ∧
      self'.find_entry (mono_domain_get_id 9) = Sample.store79.find_entry (mono_domain_get_id 9) ∧
      ∀ r, self'.load_assembly_from_memory 9 r = Sample.store79.load_assembly_from_memory 9 r) ∧
    (Sample.store79.add_or_replace_entry 8 Sample.set7_new = .error Abort.fatal ∨
      ∃ self', Sample.store79.add_or_replace_entry 8 Sample.set7_new = .ok self' ∧
        self'.find_entry (mono_domain_get_id 9)
          = Sample.store79.find_entry (mono_domain_get_id 9) ∧
        ∀ r, self'.load_assembly_from_memory 9 r
          = Sample.store79.load_assembly_from_memory 9 r) :=
  ⟨by decide, by decide,
   (C7_other_domain_untouched 8 Sample.store79 7 9 (by decide) (by decide)).2,
   (C7_other_domain_untouched 8 Sample.store79 7 9 (by decide) (by decide)).1
     Sample.set7_new (by decide)⟩

/-- C8: at most one set per domain. On a valid store in which no two of the
first `length` slots hold sets of the same domain, the same holds after
`add_or_replace_entry` with any new set and after `remove_entry` with any
domain id, whenever they return; hence it holds in every state reachable from
the empty store. -/
theorem C8_one_set_per_domain (sizeof_ptr : Nat) (self : InMemoryAssemblies)
    (hv : self.Valid) (hu : self.UniqueDomains) :
    (∀ new_entry self', self.add_or_replace_entry sizeof_ptr new_entry = .ok self' →
      self'.UniqueDomains) ∧
    (∀ domain_id res self', self.remove_entry domain_id = .ok (res, self') →
      self'.UniqueDomains) ∧
    (∀ s : InMemoryAssemblies, s.Reachable sizeof_ptr → s.UniqueDomains) := by
  refine ⟨?_, ?_, ?_⟩
  · intro new_entry s' h
    exact (add_or_replace_entry_of_ok sizeof_ptr hv h).2.keeps_unique hu
  · intro d res s' h
    exact (remove_entry_of_ok hv h).2.2.stays_unique hu
  · intro s hs
    exact hs.invariant.2

/-- C8 at the store holding sets for the domains 7 and 9: re-registering
domain 7 keeps the domains distinct. -/
theorem C8_one_set_per_domain_witness :
    Sample.store79.Valid ∧ Sample.store79.UniqueDomains ∧
    ({ entries := [some Sample.set7_new, some Sample.set9], capacity := 2, length := 2 } :
      InMemoryAssemblies).UniqueDomains :=
  ⟨by decide, by decide,
   (C8_one_set_per_domain 8 Sample.store79 (by decide) (by decide)).1 Sample.set7_new _
    (by decide)⟩

/-- C9: after every sequence of calls from an empty store (of capacity
`1 ≤ capacity < 2^32`) none of which registers a set for `D`, `find_entry` for
`D` is absent and `load_assembly_from_memory` for `D` returns `nullptr` for
every name; both also hold on the empty store of any capacity. -/
theorem C9_never_registered (sizeof_ptr : Nat) (D : MonoDomain) (capacity : Nat)
    (ops : List Op) (self : InMemoryAssemblies)
    (h1 : 1 ≤ capacity) (h2 : capacity < UINT_RANGE)
    (hrun : run sizeof_ptr (create capacity) ops = .ok self)
    (hnone : ∀ op ∈ ops, ¬ op.registersFor (mono_domain_get_id D)) :
    (self.find_entry (mono_domain_get_id D) = .ok none ∧
      ∀ r, self.load_assembly_from_memory D r = .ok none) ∧
    (∀ c : Nat, (create c).find_entry (mono_domain_get_id D) = .ok none ∧
      ∀ r, (create c).load_assembly_from_memory D r = .ok none) := by
  constructor
  · have hinv := run_invariant
      (fun s => s.Valid ∧ ∀ x ∈ s.live, x.domain_id ≠ mono_domain_get_id D)
      ops (create capacity) self ?_ ⟨create_valid h1 h2, by rw [create_live]; simp⟩ hrun
    · have hf := find_entry_miss hinv.1.shape.1 hinv.2
      exact ⟨hf, fun r => load_assembly_from_memory_absent hf r⟩
    · intro op hop s s' ⟨hs, habs⟩ hstep
      have hreg := hnone op hop
      have key : ∀ e : InMemoryAssemblyEntry, e.domain_id ≠ mono_domain_get_id D →
          s.add_or_replace_entry sizeof_ptr e = .ok s' →
          s'.Valid ∧ ∀ x ∈ s'.live, x.domain_id ≠ mono_domain_get_id D := by
        intro e he hadd
        obtain ⟨v', u'⟩ := add_or_replace_entry_of_ok sizeof_ptr hs hadd
        refine ⟨v', ?_⟩
        rcases u' with ⟨L1, x, L2, g1, -, -, g4, -⟩ | ⟨-, g2, -⟩
        · rw [g4]
          rw [g1] at habs
          intro y hy
          rcases List.mem_append.1 hy with hy | hy
          · exact habs y (List.mem_append_left _ hy)
          · rcases List.mem_cons.1 hy with rfl | hy
            · exact he
            · exact habs y (List.mem_append_right _ (List.mem_cons_of_mem _ hy))
        · rw [g2]
          intro y hy
          rcases List.mem_append.1 hy with hy | hy
          · exact habs y hy
          · rw [List.mem_singleton.1 hy]; exact he
      cases op with
      | register new_entry => exact key new_entry hreg hstep
      | from_java domain assemblies assembliesBytes =>
        rcases add_or_update_from_java_of_ok hstep with ⟨-, rfl⟩ | ⟨e, hsome, hd, hadd⟩
        · exact ⟨hs, habs⟩
        · refine key e ?_ hadd
          intro hed
          exact hreg ⟨by rw [← hed, hd]; rfl, hsome⟩
      | release domain =>
        obtain ⟨res, hrem⟩ := clear_for_domain_of_ok hs hstep
        obtain ⟨v', -, r'⟩ := remove_entry_of_ok hs hrem
        refine ⟨v', ?_⟩
        rcases r' with ⟨L1, x, L2, g1, -, -, -, g4, -⟩ | ⟨-, -, g3⟩
        · rw [g4]
          rw [g1] at habs
          intro y hy
          rcases List.mem_append.1 hy with hy | hy
          · exact habs y (List.mem_append_left _ hy)
          · exact habs y (List.mem_append_right _ (List.mem_cons_of_mem _ hy))
        · rw [g3]; exact habs
  · intro c
    have hf : (create c).find_entry (mono_domain_get_id D) = .ok none := rfl
    exact ⟨hf, fun r => load_assembly_from_memory_absent hf r⟩

/-- C9 for domain 5 after registering sets for the domains 7 and 9 and
releasing domain 7. -/
theorem C9_never_registered_witness :
    run 8 (create 1) [.register Sample.set7, .from_java 9 Sample.names_C (some [Sample.b1]),
      .release 7] = .ok { entries := [some Sample.set9, some Sample.set9], capacity := 2, length := 1 } ∧
    ({ entries := [some Sample.set9, some Sample.set9], capacity := 2, length := 1 } :
      InMemoryAssemblies).load_assembly_from_memory 5 Sample.C_dll = .ok none :=
  ⟨by decide,
   ((C9_never_registered 8 5 1
      [.register Sample.set7, .from_java 9 Sample.names_C (some [Sample.b1]), .release 7]
      _ (by decide) (by decide) (by decide) (by
        intro op hop
        simp only [List.mem_cons, List.mem_singleton] at hop
        rcases hop with rfl | rfl | rfl | hop
        · simp [Op.registersFor, Sample.set7, mono_domain_get_id]
        · simp [Op.registersFor, mono_domain_get_id]
        · simp [Op.registersFor]
        · cases hop)).1).2 Sample.C_dll⟩

/-- C10: on every valid store, if some stored set has domain `D` then
`remove_entry` returns the one of lowest index, decrements `length` by one,
leaves `capacity` unchanged, and the stored sets are afterwards the previous
ones with that one erased, in their previous order; if no stored set has
domain `D` it returns `nullptr` and the store is unchanged. -/
theorem C10_remove_entry (self : InMemoryAssemblies) (D : Int) (hv : self.Valid) :
    (∀ L1 x L2, self.live = L1 ++ x :: L2 → (∀ y ∈ L1, y.domain_id ≠ D) → x.domain_id = D →
      ∃ self', self.remove_entry D = .ok (some x, self') ∧
        self'.length + 1 = self.length ∧ self'.capacity = self.capacity ∧
        self'.live = L1 ++ L2 ∧ self'.live = self.live.eraseIdx L1.length) ∧
    ((∀ y ∈ self.live, y.domain_id ≠ D) → self.remove_entry D = .ok (none, self)) := by
  obtain ⟨hs, -⟩ := hv.shape
  constructor
  · intro L1 x L2 hlive h1 h2
    have hs' := hs
    rw [hlive] at hs'
    obtain ⟨s', p, e1, e2, e3, e4⟩ := remove_entry_hit hs' (by
      obtain ⟨-, -, v3, v4, -⟩ := hv
      omega) h1 h2
    refine ⟨s', e1, e4, e3, e2.live_eq, ?_⟩
    rw [e2.live_eq, hlive, List.eraseIdx_append_of_length_le (le_refl _)]
    simp
  · intro h
    exact remove_entry_miss hs h

/-- C10 at the store holding sets for the domains 7 and 9: removing domain 7
returns its set and leaves the set of domain 9. -/
theorem C10_remove_entry_witness :
    Sample.store79.Valid ∧
    ∃ self', Sample.store79.remove_entry 7 = .ok (some Sample.set7, self') ∧
      self'.length + 1 = Sample.store79.length ∧ self'.capacity = Sample.store79.capacity ∧
      self'.live = [] ++ [Sample.set9] ∧ self'.live = Sample.store79.live.eraseIdx 0 :=
  ⟨by decide,
   (C10_remove_entry Sample.store79 7 (by decide)).1 [] Sample.set7 [Sample.set9]
    (by decide) (by simp) (by decide)⟩

/-- C11 (as amended): on every valid store and for every new set `S`: if some
stored set has the domain of `S`, `add_or_replace_entry` writes `S` into the
slot of the first such set and leaves `length`, `capacity` and every other
slot unchanged; otherwise, when a slot is free or the overflow checks of the
growth pass, it writes `S` into slot `length`, increases `length` by one and
leaves the slots below the old `length` unchanged; otherwise, when the store
is full and an overflow check fails, it takes the fatal exit. -/
theorem C11_replace_or_append (sizeof_ptr : Nat) (self : InMemoryAssemblies)
    (S : InMemoryAssemblyEntry) (hv : self.Valid) :
    (∀ L1 x L2, self.live = L1 ++ x :: L2 → (∀ y ∈ L1, y.domain_id ≠ S.domain_id) →
      x.domain_id = S.domain_id →
      ∃ self', self.add_or_replace_entry sizeof_ptr S = .ok self' ∧
        self'.entries = self.entries.set L1.length (some S) ∧
        self'.live = L1 ++ S :: L2 ∧
        self'.length = self.length ∧ self'.capacity = self.capacity) ∧
    ((∀ y ∈ self.live, y.domain_id ≠ S.domain_id) → self.AddFits sizeof_ptr →
      ∃ self', self.add_or_replace_entry sizeof_ptr S = .ok self' ∧
        self'.entries[self.length]? = some (some S) ∧
        self'.length = self.length + 1 ∧
        self'.live = self.live ++ [S] ∧
        ∀ i, i < self.length → self'.entries[i]? = self.entries[i]?) ∧
    ((∀ y ∈ self.live, y.domain_id ≠ S.domain_id) → ¬ self.AddFits sizeof_ptr →
      self.add_or_replace_entry sizeof_ptr S = .error Abort.fatal) := by
  obtain ⟨hs, -⟩ := hv.shape
  refine ⟨?_, ?_, ?_⟩
  · intro L1 x L2 hlive h1 h2
    have hs' := hs
    rw [hlive] at hs'
    obtain ⟨s', e1, e2, e3, e4, e5⟩ := add_or_replace_entry_hit sizeof_ptr hs' h1 h2
    exact ⟨s', e1, e5, e2.live_eq, e4, e3⟩
  · intro hmiss hfit
    rw [add_or_replace_entry_miss sizeof_ptr hs hmiss]
    obtain ⟨s', e1, e2, e3, e4, -⟩ := add_entry_ok sizeof_ptr S hv hfit
    have hlen := hv.live_length
    refine ⟨s', e1, ?_, e4, e3, ?_⟩
    · have h := e2.slot (show self.length < s'.live.length by rw [e3]; simp [hlen])
      rw [h]
      congr 2
      simp [e3, ← hlen]
    · intro i hi
      have h := e2.slot (show i < s'.live.length by rw [e3]; simp [hlen]; omega)
      have h' := hv.slot (show i < self.live.length by omega)
      rw [h, h']
      congr 2
      simp only [e3]
      rw [List.getElem_append_left]
  · intro hmiss hfit
    rw [add_or_replace_entry_miss sizeof_ptr hs hmiss]
    exact add_entry_fatal sizeof_ptr S hfit

/-- C11 as stated fails on the full store of capacity `2^31` that holds sets
for the domains `0, …, 2^31 - 1`: for a set of the new domain `-1`,
`add_or_replace_entry` takes the fatal exit of the overflow check and appends
nothing. -/
theorem C11_append_counterexample :
    (Sample.full_store (2 ^ 31)).Valid ∧
    (∀ y ∈ (Sample.full_store (2 ^ 31)).live, y.domain_id ≠ (Sample.bare (-1)).domain_id) ∧
    (Sample.full_store (2 ^ 31)).add_or_replace_entry 8 (Sample.bare (-1))
      = .error Abort.fatal ∧
    ¬ ∃ self', (Sample.full_store (2 ^ 31)).add_or_replace_entry 8 (Sample.bare (-1))
      = .ok self' := by
  have hfatal : (Sample.full_store (2 ^ 31)).add_or_replace_entry 8 (Sample.bare (-1))
      = .error Abort.fatal := by
    rw [add_or_replace_entry_miss 8 (full_store_shape (2 ^ 31)) (by
      rw [← (full_store_shape (2 ^ 31)).live_eq]
      exact full_store_domains (2 ^ 31))]
    exact add_entry_fatal 8 _ (full_store_not_fits 8 (by rw [UINT_RANGE_eq]; norm_num))
  refine ⟨full_store_valid (by norm_num) (by rw [UINT_RANGE_eq]; norm_num),
    full_store_domains _, hfatal, ?_⟩
  rintro ⟨s', hs'⟩
  rw [hfatal] at hs'
  cases hs'

/-- C11 at the store holding sets for the domains 7 and 9: a new set for
domain 7 replaces the first slot, a set for domain 11 is appended after a
growth of the backing array. -/
theorem C11_replace_or_append_witness :
    Sample.store79.Valid ∧
    (∃ self', Sample.store79.add_or_replace_entry 8 Sample.set7_new = .ok self' ∧
        self'.entries = Sample.store79.entries.set 0 (some Sample.set7_new) ∧
        self'.live = [] ++ Sample.set7_new :: [Sample.set9] ∧
        self'.length = Sample.store79.length ∧ self'.capacity = Sample.store79.capacity) ∧
    (∃ self', Sample.store79.add_or_replace_entry 8 Sample.set11 = .ok self' ∧
        self'.entries[Sample.store79.length]? = some (some Sample.set11) ∧
        self'.length = Sample.store79.length + 1 ∧
        self'.live = Sample.store79.live ++ [Sample.set11] ∧
        ∀ i, i < Sample.store79.length → self'.entries[i]? = Sample.store79.entries[i]?) :=
  ⟨by decide,
   (C11_replace_or_append 8 Sample.store79 Sample.set7_new (by decide)).1
     [] Sample.set7 [Sample.set9] (by decide) (by simp) (by decide),
   (C11_replace_or_append 8 Sample.store79 Sample.set11 (by decide)).2.1
     (by decide) (by decide)⟩

/-- C12: growth. For every `N ≥ 1` with `2 * N` representable as an
`unsigned int` (and the `N` pointers of the backing array an object of the
target, `sizeof_ptr * N` below the range of `size_t`), starting from the empty
store of capacity `N` and registering `N + 1` sets `es ++ [e]` of pairwise
distinct domains: after each of the first `N` registrations the capacity is
still `N`; the last registration changes it to `2 * N`; the final length is
`N + 1`; the `N` sets registered first are unchanged in their slots and the
new set is in slot `N`. -/
theorem C12_growth_doubles_once (sizeof_ptr N : Nat) (es : List InMemoryAssemblyEntry)
    (e : InMemoryAssemblyEntry) (hN : 1 ≤ N) (h2N : 2 * N < UINT_RANGE)
    (hsize : sizeof_ptr * N < SIZE_RANGE sizeof_ptr) (hlen : es.length = N)
    (hdistinct : ((es ++ [e]).map (fun x => x.domain_id)).Nodup) :
    (∀ k, k ≤ N → ∃ sk, run sizeof_ptr (create N) ((es.take k).map Op.register) = .ok sk ∧
      sk.capacity = N ∧ sk.length = k ∧ sk.live = es.take k) ∧
    ∃ sN sf, run sizeof_ptr (create N) (es.map Op.register) = .ok sN ∧
      sN.capacity = N ∧ sN.length = N ∧
      sN.add_or_replace_entry sizeof_ptr e = .ok sf ∧
      run sizeof_ptr (create N) ((es ++ [e]).map Op.register) = .ok sf ∧
      sf.capacity = 2 * N ∧ sf.length = N + 1 ∧ sf.live = es ++ [e] ∧
      (∀ i, i < N → sf.entries[i]? = sN.entries[i]?) ∧
      sf.entries[N]? = some (some e) := by
  have hv0 : (create N).Valid := create_valid hN (by omega)
  have hnd_es : (es.map (fun x => x.domain_id)).Nodup := by
    rw [List.map_append, List.nodup_append] at hdistinct
    exact hdistinct.1
  have hprefix : ∀ k, k ≤ N → ∃ sk, run sizeof_ptr (create N) ((es.take k).map Op.register)
      = .ok sk ∧ sk.Valid ∧ sk.capacity = N ∧ sk.length = k ∧ sk.live = es.take k := by
    intro k hk
    have hklen : (es.take k).length = k := by rw [List.length_take]; omega
    obtain ⟨sk, a, v, l, c, n⟩ := run_register_free sizeof_ptr (es.take k) (create N) hv0
      (by rw [hklen]; show 0 + k ≤ N; omega)
      (by
        rw [create_live, List.nil_append]
        exact List.Nodup.sublist ((List.take_sublist k es).map _) hnd_es)
    refine ⟨sk, a, v, c, ?_, ?_⟩
    · rw [n, hklen]; show 0 + k = k; omega
    · rw [l, create_live, List.nil_append]
  refine ⟨fun k hk => ?_, ?_⟩
  · obtain ⟨sk, a, -, c, n, l⟩ := hprefix k hk
    exact ⟨sk, a, c, n, l⟩
  · obtain ⟨sN, a, v, c, n, l⟩ := hprefix N (le_refl N)
    rw [← hlen, List.take_length] at a l
    rw [hlen] at a
    have hmiss : ∀ y ∈ sN.live, y.domain_id ≠ e.domain_id := by
      intro y hy hyd
      rw [l] at hy
      rw [List.map_append, List.nodup_append] at hdistinct
      exact hdistinct.2.2 (List.mem_map_of_mem _ hy)
        (by rw [hyd]; exact List.mem_map_of_mem _ (List.mem_singleton_self e))
    have hfit : sN.AddFits sizeof_ptr := by
      right
      rw [c, n]
      exact ⟨by omega, hsize⟩
    obtain ⟨sf, a1, v1, l1, n1, c1⟩ := add_entry_ok sizeof_ptr e v hfit
    have hadd : sN.add_or_replace_entry sizeof_ptr e = .ok sf := by
      rw [add_or_replace_entry_miss sizeof_ptr v.shape.1 hmiss]
      exact a1
    have hfull : ¬ sN.length < sN.capacity := by omega
    rw [if_neg hfull, c] at c1
    rw [n] at n1
    rw [l] at l1
    have hlive_len : sN.live.length = N := by rw [l]; exact hlen
    refine ⟨sN, sf, a, c, n, hadd, ?_, by omega, n1, l1, ?_, ?_⟩
    · rw [List.map_append, run_append, a]
      show run sizeof_ptr sN [Op.register e] = _
      rw [run]
      have hstep : step sizeof_ptr sN (Op.register e) = .ok sf := hadd
      rw [hstep]
      rfl
    · intro i hi
      have h := v1.slot (show i < sf.live.length by rw [l1]; simp; omega)
      have h' := v.slot (show i < sN.live.length by omega)
      rw [h, h']
      congr 2
      simp only [l1, l]
      rw [List.getElem_append_left]
    · have h := v1.slot (show N < sf.live.length by rw [l1]; simp; omega)
      rw [h]
      congr 2
      simp [l1, hlen]

/-- C12 for `N = 2`: sets for the domains 7, 9 and 11 registered on the empty
store of capacity 2. -/
theorem C12_growth_doubles_once_witness :
    (∀ k, k ≤ 2 → ∃ sk, run 8 (create 2)
        (([Sample.set7, Sample.set9].take k).map Op.register) = .ok sk ∧
      sk.capacity = 2 ∧ sk.length = k ∧ sk.live = [Sample.set7, Sample.set9].take k) ∧
    ∃ sN sf, run 8 (create 2) ([Sample.set7, Sample.set9].map Op.register) = .ok sN ∧
      sN.capacity = 2 ∧ sN.length = 2 ∧
      sN.add_or_replace_entry 8 Sample.set11 = .ok sf ∧
      run 8 (create 2) (([Sample.set7, Sample.set9] ++ [Sample.set11]).map Op.register)
        = .ok sf ∧
      sf.capacity = 2 * 2 ∧ sf.length = 2 + 1 ∧
      sf.live = [Sample.set7, Sample.set9] ++ [Sample.set11] ∧
      (∀ i, i < 2 → sf.entries[i]? = sN.entries[i]?) ∧
      sf.entries[2]? = some (some Sample.set11) :=
  C12_growth_doubles_once 8 2 [Sample.set7, Sample.set9] Sample.set11 (by decide) (by decide)
    (by decide) (by decide) (by decide)

/-- C13: on every full store (`length ≥ capacity`), when the doubled capacity
is not representable as an `unsigned int` the checked multiplication and with
it `add_entry` take the fatal exit, and no store is produced, in particular
none whose capacity is the wrapped product; likewise when the byte count
`sizeof_ptr * length` of the copy is not representable in `size_t`. -/
theorem C13_overflow_is_fatal (sizeof_ptr : Nat) (self : InMemoryAssemblies)
    (entry : InMemoryAssemblyEntry) (hfull : self.length ≥ self.capacity) :
    (2 * self.capacity ≥ UINT_RANGE →
      multiply_with_overflow_check UINT_RANGE self.capacity 2 = .error Abort.fatal ∧
      self.add_entry sizeof_ptr entry = .error Abort.fatal ∧
      ¬ ∃ self', self.add_entry sizeof_ptr entry = .ok self' ∧
        self'.capacity = (2 * self.capacity) % UINT_RANGE) ∧
    (sizeof_ptr * self.length ≥ SIZE_RANGE sizeof_ptr →
      multiply_with_overflow_check (SIZE_RANGE sizeof_ptr) sizeof_ptr self.length
        = .error Abort.fatal ∧
      self.add_entry sizeof_ptr entry = .error Abort.fatal ∧
      ¬ ∃ self', self.add_entry sizeof_ptr entry = .ok self') := by
  constructor
  · intro hover
    have hfatal : self.add_entry sizeof_ptr entry = .error Abort.fatal := by
      apply add_entry_fatal
      rintro (h | ⟨h, -⟩) <;> omega
    refine ⟨?_, hfatal, ?_⟩
    · unfold multiply_with_overflow_check
      rw [if_neg (by omega)]
    · rintro ⟨s', hs', -⟩
      rw [hfatal] at hs'
      cases hs'
  · intro hover
    have hfatal : self.add_entry sizeof_ptr entry = .error Abort.fatal := by
      apply add_entry_fatal
      rintro (h | ⟨-, h⟩) <;> omega
    refine ⟨?_, hfatal, ?_⟩
    · unfold multiply_with_overflow_check
      rw [if_neg (by omega)]
    · rintro ⟨s', hs'⟩
      rw [hfatal] at hs'
      cases hs'

/-- C13 at the full store of capacity `2^31` with 8-byte pointers (the doubled
capacity overflows) and at the full store of capacity `2^30` with 4-byte
pointers (the byte count of the copy overflows). -/
theorem C13_overflow_is_fatal_witness :
    (Sample.full_store (2 ^ 31)).length ≥ (Sample.full_store (2 ^ 31)).capacity ∧
    (Sample.full_store (2 ^ 31)).add_entry 8 (Sample.bare (-1)) = .error Abort.fatal ∧
    (Sample.full_store (2 ^ 30)).add_entry 4 (Sample.bare (-1)) = .error Abort.fatal :=
  ⟨Nat.le_refl _,
   ((C13_overflow_is_fatal 8 (Sample.full_store (2 ^ 31)) (Sample.bare (-1)) (Nat.le_refl _)).1
     (by show 2 * 2 ^ 31 ≥ UINT_RANGE; rw [UINT_RANGE_eq]; norm_num)).2.1,
   ((C13_overflow_is_fatal 4 (Sample.full_store (2 ^ 30)) (Sample.bare (-1)) (Nat.le_refl _)).2
     (by show 4 * 2 ^ 30 ≥ SIZE_RANGE 4; unfold SIZE_RANGE; norm_num)).2.1⟩

/-- C14 (as amended): for every store and domain `D`, when the raw-buffers
array is null `add_or_update_from_java` returns the store unchanged, so a set
registered for `D` is still what `find_entry` returns; when it is empty the
call is `add_or_replace_entry` with a set of `assemblies_count = 0` for `D`,
and on a valid store (a set for `D` being stored, or the append passing the
overflow checks) `find_entry` for `D` afterwards returns that empty set. -/
theorem C14_null_or_empty_buffers (sizeof_ptr : Nat) (self : InMemoryAssemblies)
    (D : MonoDomain) (names : jstring_array_wrapper) :
    (self.add_or_update_from_java sizeof_ptr D names none = .ok self ∧
      ∀ self', self.add_or_update_from_java sizeof_ptr D names none = .ok self' →
        self'.entries = self.entries ∧ self'.length = self.length ∧
        self'.capacity = self.capacity ∧
        self'.find_entry (mono_domain_get_id D) = self.find_entry (mono_domain_get_id D)) ∧
    self.add_or_update_from_java sizeof_ptr D names (some [])
      = self.add_or_replace_entry sizeof_ptr
          { domain_id := mono_domain_get_id D, assemblies_count := 0, names := [],
            assemblies_bytes := [], assemblies_bytes_len := [] } ∧
    (self.Valid →
      ((∃ x ∈ self.live, x.domain_id = mono_domain_get_id D) ∨ self.AddFits sizeof_ptr) →
      ∃ self', self.add_or_update_from_java sizeof_ptr D names (some []) = .ok self' ∧
        self'.find_entry (mono_domain_get_id D)
          = .ok (some { domain_id := mono_domain_get_id D, assemblies_count := 0, names := [],
                        assemblies_bytes := [], assemblies_bytes_len := [] })) := by
  have hnull : self.add_or_update_from_java sizeof_ptr D names none = .ok self := rfl
  have hempty : self.add_or_update_from_java sizeof_ptr D names (some [])
      = self.add_or_replace_entry sizeof_ptr
          { domain_id := mono_domain_get_id D, assemblies_count := 0, names := [],
            assemblies_bytes := [], assemblies_bytes_len := [] } := by
    rw [add_or_update_from_java_eq sizeof_ptr self D names [] (by norm_num) (by simp) (by simp)]
    simp [mono_domain_get_id]
  refine ⟨⟨hnull, ?_⟩, hempty, ?_⟩
  · intro s' hs'
    rw [hnull] at hs'
    injection hs' with hs'
    subst hs'
    exact ⟨rfl, rfl, rfl, rfl⟩
  · intro hv hfit
    rw [hempty]
    obtain ⟨s', h1, h2, h3⟩ := add_or_replace_entry_spec sizeof_ptr hv
      { domain_id := mono_domain_get_id D, assemblies_count := 0, names := [],
        assemblies_bytes := [], assemblies_bytes_len := [] } hfit
    exact ⟨s', h1, h3.find_new h2⟩

/-- C14 as stated fails for an empty raw-buffers array: on the store holding
the set of domain 7, the call for domain 7 with an empty array returns a
different store, in which `find_entry` for domain 7 returns a set without
assemblies instead of the set registered before. -/
theorem C14_empty_buffers_counterexample :
    Sample.store7.find_entry (mono_domain_get_id 7) = .ok (some Sample.set7) ∧
    Sample.store7.add_or_update_from_java 8 7 Sample.names_none (some [])
      = .ok { entries := [some (Sample.bare 7)], capacity := 1, length := 1 } ∧
    ({ entries := [some (Sample.bare 7)], capacity := 1, length := 1 } : InMemoryAssemblies)
      ≠ Sample.store7 ∧
    ({ entries := [some (Sample.bare 7)], capacity := 1, length := 1 } : InMemoryAssemblies).find_entry
      (mono_domain_get_id 7) = .ok (some (Sample.bare 7)) ∧
    Sample.bare 7 ≠ Sample.set7 := by
  refine ⟨by decide, by decide, by decide, by decide, by decide⟩

/-- C14 at the store holding the set of domain 7: a null array leaves it
alone, an empty array replaces the set of domain 7 by an empty one. -/
theorem C14_null_or_empty_buffers_witness :
    Sample.store7.add_or_update_from_java 8 7 Sample.names_AB none = .ok Sample.store7 ∧
    Sample.store7.Valid ∧
    ∃ self', Sample.store7.add_or_update_from_java 8 7 Sample.names_AB (some []) = .ok self' ∧
      self'.find_entry (mono_domain_get_id 7)
        = .ok (some { domain_id := mono_domain_get_id 7, assemblies_count := 0, names := [],
                      assemblies_bytes := [], assemblies_bytes_len := [] }) :=
  ⟨(C14_null_or_empty_buffers 8 Sample.store7 7 Sample.names_AB).1.1, by decide,
   (C14_null_or_empty_buffers 8 Sample.store7 7 Sample.names_AB).2.2 (by decide) (by decide)⟩

/-- C15 (as amended): `add_or_update_from_java` makes no check of the lengths
of its two arrays. For Java arrays with fewer names than raw buffers it
completes the iterations below the number of names, and for every further
buffer it asks the name wrapper for a name past the end of the name array.
It never rejects the transfer: when such a lookup exits, the call exits the
same way; when these lookups return strings, a set with one entry per raw
buffer is registered for the domain; and whenever the call returns,
`find_entry` for the domain returns a set with one entry per raw buffer. -/
theorem C15_no_length_check (sizeof_ptr : Nat) (self : InMemoryAssemblies)
    (D : MonoDomain) (names : jstring_array_wrapper) (raw_buffers : List (List Nat))
    (hn : raw_buffers.length < 2 ^ 31) (hb : ∀ b ∈ raw_buffers, b.length < 2 ^ 31)
    (hshort : names.strings.length < raw_buffers.length) :
    ingest_from names raw_buffers names.strings.length 0 ([], [], [])
      = .ok (names.strings, raw_buffers.take names.strings.length,
             (raw_buffers.take names.strings.length).map List.length) ∧
    (∀ (extra : List CStr) (e : Abort),
      names.strings.length + extra.length < raw_buffers.length →
      (∀ j (hj : j < extra.length), names.past_end (names.strings.length + j) = .ok extra[j]) →
      names.past_end (names.strings.length + extra.length) = .error e →
      self.add_or_update_from_java sizeof_ptr D names (some raw_buffers) = .error e) ∧
    (∀ extra : List CStr,
      names.strings.length + extra.length = raw_buffers.length →
      (∀ j (hj : j < extra.length), names.past_end (names.strings.length + j) = .ok extra[j]) →
      self.add_or_update_from_java sizeof_ptr D names (some raw_buffers)
        = self.add_or_replace_entry sizeof_ptr
            { domain_id := mono_domain_get_id D
              assemblies_count := raw_buffers.length
              names := names.strings ++ extra
              assemblies_bytes := raw_buffers
              assemblies_bytes_len := raw_buffers.map List.length }) ∧
    (self.Valid → ∀ self',
      self.add_or_update_from_java sizeof_ptr D names (some raw_buffers) = .ok self' →
      ∃ S, self'.find_entry (mono_domain_get_id D) = .ok (some S) ∧
        S.assemblies_count = raw_buffers.length ∧ S.assemblies_bytes = raw_buffers) := by
  have hb' : ∀ b ∈ raw_buffers, b.length < UINT_RANGE := by
    intro b hbm
    have := hb b hbm
    rw [UINT_RANGE_eq]; omega
  refine ⟨?_, ?_, ?_, ?_⟩
  · rw [ingest_from_spec names raw_buffers hb' names.strings.length 0 _ (by omega) (by omega)]
    simp
  · intro extra e hlen hlook hexit
    exact add_or_update_from_java_exit sizeof_ptr self D names raw_buffers hn hb extra e hlen
      hlook hexit
  · intro extra hlen hlook
    exact add_or_update_from_java_past_end sizeof_ptr self D names raw_buffers hn hb extra hlen
      hlook
  · intro hv s' hs'
    obtain ⟨nms, -, hadd⟩ := add_or_update_from_java_some_ok hn hb hs'
    obtain ⟨v', u'⟩ := add_or_replace_entry_of_ok sizeof_ptr hv hadd
    exact ⟨_, u'.find_new v', rfl, rfl⟩

/-- C15 as stated fails for the one name `C.dll` and the two buffers `b1`,
`b2`, on the store holding the set of domain 7 and for domain 9: whatever the
lookup past the end of the name array gives, the call does not return the
store unchanged; with a lookup that returns a string it publishes a set of
two entries for domain 9, and with a lookup that exits it exits, after the
iteration at index 0. -/
theorem C15_not_rejected_counterexample :
    Sample.names_C.strings.length < [Sample.b1, Sample.b2].length ∧
    (¬ ∃ past_end : Nat → Except Abort CStr,
      Sample.store7.add_or_update_from_java 8 9
        { strings := [Sample.C_dll], past_end := past_end } (some [Sample.b1, Sample.b2])
        = .ok Sample.store7) ∧
    Sample.store7.add_or_update_from_java 8 9 Sample.names_C_more
        (some [Sample.b1, Sample.b2])
      = .ok { entries := [some Sample.set7,
                some { domain_id := 9, assemblies_count := 2,
                       names := [Sample.C_dll, Sample.B_dll],
                       assemblies_bytes := [Sample.b1, Sample.b2],
                       assemblies_bytes_len := [3, 2] }],
              capacity := 2, length := 2 } ∧
    Sample.store7.add_or_update_from_java 8 9 Sample.names_C (some [Sample.b1, Sample.b2])
      = .error Abort.fault ∧
    ingest_from Sample.names_C [Sample.b1, Sample.b2] 1 0 ([], [], [])
      = .ok ([Sample.C_dll], [Sample.b1], [3]) := by
  refine ⟨by decide, ?_, by decide, by decide, by decide⟩
  rintro ⟨past_end, h⟩
  cases hpe : past_end 1 with
  | error e =>
    rw [add_or_update_from_java_exit 8 Sample.store7 9
      { strings := [Sample.C_dll], past_end := past_end } [Sample.b1, Sample.b2]
      (by decide) (by decide) [] e (by simp) (by intro j hj; cases hj) hpe] at h
    cases h
  | ok nm =>
    rw [add_or_update_from_java_past_end 8 Sample.store7 9
      { strings := [Sample.C_dll], past_end := past_end } [Sample.b1, Sample.b2]
      (by decide) (by decide) [nm] (by simp) (by
        intro j hj
        have hj0 : j = 0 := by simpa using hj
        subst hj0
        exact hpe)] at h
    have hres : Sample.store7.add_or_replace_entry 8
        { domain_id := mono_domain_get_id 9
          assemblies_count := [Sample.b1, Sample.b2].length
          names := [Sample.C_dll] ++ [nm]
          assemblies_bytes := [Sample.b1, Sample.b2]
          assemblies_bytes_len := [Sample.b1, Sample.b2].map List.length }
        = .ok { entries := [some Sample.set7,
                  some { domain_id := mono_domain_get_id 9
                         assemblies_count := [Sample.b1, Sample.b2].length
                         names := [Sample.C_dll] ++ [nm]
                         assemblies_bytes := [Sample.b1, Sample.b2]
                         assemblies_bytes_len := [Sample.b1, Sample.b2].map List.length }],
                capacity := 2, length := 2 } := rfl
    rw [hres] at h
    injection h with h
    have hlen := congrArg InMemoryAssemblies.length h
    simp [Sample.store7] at hlen

/-- C15 at the one name `C.dll` and the two buffers `b1`, `b2`: with a lookup
past the end that returns `B.dll` the set of two entries is registered, with
one that exits the call exits. -/
theorem C15_no_length_check_witness :
    Sample.names_C.strings.length < [Sample.b1, Sample.b2].length ∧
    Sample.store7.add_or_update_from_java 8 9 Sample.names_C (some [Sample.b1, Sample.b2])
      = .error Abort.fault ∧
    Sample.store7.add_or_update_from_java 8 9 Sample.names_C_more
        (some [Sample.b1, Sample.b2])
      = Sample.store7.add_or_replace_entry 8
          { domain_id := mono_domain_get_id 9
            assemblies_count := [Sample.b1, Sample.b2].length
            names := Sample.names_C_more.strings ++ [Sample.B_dll]
            assemblies_bytes := [Sample.b1, Sample.b2]
            assemblies_bytes_len := [Sample.b1, Sample.b2].map List.length } :=
  ⟨by decide,
   (C15_no_length_check 8 Sample.store7 9 Sample.names_C [Sample.b1, Sample.b2]
     (by decide) (by decide) (by decide)).2.1 [] Abort.fault (by decide)
     (by intro j hj; cases hj) rfl,
   (C15_no_length_check 8 Sample.store7 9 Sample.names_C_more [Sample.b1, Sample.b2]
     (by decide) (by decide) (by decide)).2.2.1 [Sample.B_dll] (by decide)
     (by
       intro j hj
       have hj0 : j = 0 := by simpa using hj
       subst hj0
       rfl)⟩

/-- C16: for every matched entry (the first entry named `r` of the set found
for `D`, the three arrays of the set having `assemblies_count` elements) whose
declared length `L` is the size of its buffer and a value a Java array length
can have (a cast `jsize`, so `L < 2^31`), `load_assembly_from_memory` creates
the managed byte array with exactly `L` elements, the element count it passes
to the copy routine, `L` converted to a signed 32-bit `int`, equals `L`, and
the copy puts all `L` bytes of the entry into the array handed to the managed
loader. -/
theorem C16_copy_count (self : InMemoryAssemblies) (D : MonoDomain)
    (S : InMemoryAssemblyEntry) (r : MonoAssemblyName) (i L : Nat) (bytes : List Nat)
    (hfind : self.find_entry (mono_domain_get_id D) = .ok (some S))
    (hnames : S.names.length = S.assemblies_count)
    (hbytes : S.assemblies_bytes.length = S.assemblies_count)
    (hlens : S.assemblies_bytes_len.length = S.assemblies_count)
    (hi : i < S.assemblies_count) (hname : S.names[i]? = some r)
    (hmin : ∀ j < i, S.names[j]? ≠ some r)
    (hL : S.assemblies_bytes_len[i]? = some L) (hB : S.assemblies_bytes[i]? = some bytes)
    (hsize : bytes.length = L) (hjsize : L < 2 ^ 31) :
    (mono_array_new L).length = L ∧
    int_of_uint L = (L : Int) ∧
    mono_value_copy_array (mono_array_new L) 0 bytes (int_of_uint L) = some bytes ∧
    self.load_assembly_from_memory D r
      = .ok (some { byteArray := bytes, arg1 := none, arg2 := none }) := by
  refine ⟨by simp [mono_array_new], int_of_uint_of_lt hjsize, ?_, ?_⟩
  · subst hsize
    exact copy_into_new_array bytes hjsize
  · rw [load_assembly_from_memory_found hfind]
    exact load_scan_hit_at hnames hbytes hlens hi hname hmin hL hB hsize hjsize

/-- C16 at the store holding the set of domain 7 and the name `A.dll`, whose
declared length is 3; and at a set whose other entry has a declared length of
`2^31`. -/
theorem C16_copy_count_witness :
    Sample.set7.assemblies_bytes_len[0]? = some 3 ∧
    ((mono_array_new 3).length = 3 ∧ int_of_uint 3 = (3 : Int) ∧
      mono_value_copy_array (mono_array_new 3) 0 Sample.b1 (int_of_uint 3) = some Sample.b1 ∧
      Sample.store7.load_assembly_from_memory 7 Sample.A_dll
        = .ok (some { byteArray := Sample.b1, arg1 := none, arg2 := none })) ∧
    Sample.mixed_store.load_assembly_from_memory 7 Sample.A_dll
      = .ok (some { byteArray := Sample.b1, arg1 := none, arg2 := none }) :=
  ⟨by decide,
   C16_copy_count Sample.store7 7 Sample.set7 Sample.A_dll 0 3 Sample.b1 (by decide) (by decide)
     (by decide) (by decide) (by decide) (by decide) (by intro j hj; omega) (by decide)
     (by decide) (by decide) (by decide),
   (C16_copy_count Sample.mixed_store 7 Sample.mixed_set Sample.A_dll 0 3 Sample.b1 rfl rfl
     rfl rfl (by decide) rfl (by intro j hj; omega) rfl rfl (by decide) (by decide)).2.2.2⟩

/-- C17: bounds invariant of the backing array. On every valid store (the
array has `capacity ≥ 1` slots and `length ≤ capacity`): `add_entry` and
`add_or_replace_entry`, when they return (which they do whenever the overflow
checks pass, and they never fault), and `remove_entry`, which always returns,
yield a valid store again, so `capacity ≥ 1` and `length ≤ capacity` still
hold; the slot `length` written by `add_entry` is below the capacity it then
has; where `remove_entry` evaluates `length - 1` the length is at least one,
and the slots `j + 1` read by its shift loop are below `capacity`; the slots
read by `find_entry` are below `capacity` and `find_entry` never faults. -/
theorem C17_bounds_invariant (sizeof_ptr : Nat) (self : InMemoryAssemblies) (hv : self.Valid) :
    (∀ entry, self.AddFits sizeof_ptr →
      ∃ self', self.add_entry sizeof_ptr entry = .ok self' ∧ self'.Valid ∧
        1 ≤ self'.capacity ∧ self'.length ≤ self'.capacity ∧ self.length < self'.capacity) ∧
    (∀ entry, self.add_entry sizeof_ptr entry ≠ .error Abort.fault) ∧
    (∀ new_entry self', self.add_or_replace_entry sizeof_ptr new_entry = .ok self' →
      self'.Valid ∧ 1 ≤ self'.capacity ∧ self'.length ≤ self'.capacity) ∧
    (∀ new_entry, self.add_or_replace_entry sizeof_ptr new_entry ≠ .error Abort.fault) ∧
    (∀ domain_id, ∃ res self', self.remove_entry domain_id = .ok (res, self') ∧ self'.Valid ∧
      1 ≤ self'.capacity ∧ self'.length ≤ self'.capacity) ∧
    ((∃ x ∈ self.live, True) → 1 ≤ self.length ∧ uint_decr self.length + 1 = self.length ∧
      ∀ j, j < uint_decr self.length → j + 1 < self.capacity) ∧
    (∀ domain_id, ∃ res, self.find_entry domain_id = .ok res) ∧
    (∀ i, i < self.length → i < self.capacity ∧ ∃ entry, self.entries[i]? = some (some entry)) := by
  have hlen := hv.live_length
  obtain ⟨v1, v2, v3, v4, v5⟩ := id hv
  refine ⟨?_, ?_, ?_, ?_, ?_, ?_, ?_, ?_⟩
  · intro entry hfit
    obtain ⟨s', e1, e2, -, e4, -⟩ := add_entry_ok sizeof_ptr entry hv hfit
    obtain ⟨w1, w2, w3, w4, w5⟩ := id e2
    exact ⟨s', e1, e2, w2, w4, by omega⟩
  · intro entry h
    by_cases hfit : self.AddFits sizeof_ptr
    · obtain ⟨s', e1, -⟩ := add_entry_ok sizeof_ptr entry hv hfit
      rw [e1] at h
      cases h
    · rw [add_entry_fatal sizeof_ptr entry hfit] at h
      cases h
  · intro new_entry s' h
    obtain ⟨e2, -⟩ := add_or_replace_entry_of_ok sizeof_ptr hv h
    obtain ⟨w1, w2, w3, w4, w5⟩ := id e2
    exact ⟨e2, w2, w4⟩
  · intro new_entry h
    rcases add_or_replace_entry_total sizeof_ptr hv new_entry with h' | ⟨s', h', -⟩
    · rw [h'] at h; cases h
    · rw [h'] at h; cases h
  · intro d
    obtain ⟨res, s', e1, e2, -, -⟩ := remove_entry_spec hv d
    obtain ⟨w1, w2, w3, w4, w5⟩ := id e2
    exact ⟨res, s', e1, e2, w2, w4⟩
  · rintro ⟨x, hx, -⟩
    have hpos : 1 ≤ self.length := by
      rw [← hlen]
      exact List.length_pos_of_mem hx
    have hdec : uint_decr self.length + 1 = self.length := by
      obtain ⟨k, hk⟩ : ∃ k, self.length = k + 1 := ⟨self.length - 1, by omega⟩
      rw [hk, uint_decr_succ (by omega)]
    exact ⟨hpos, hdec, fun j hj => by omega⟩
  · intro d
    exact ⟨_, find_entry_eq_find hv d⟩
  · intro i hi
    exact ⟨by omega, _, hv.slot (by omega)⟩

/-- C17 at the store holding sets for the domains 7 and 9, which is full: the
append of a set for domain 11 grows the array and stays in bounds. -/
theorem C17_bounds_invariant_witness :
    Sample.store79.Valid ∧
    (∃ self', Sample.store79.add_entry 8 Sample.set11 = .ok self' ∧ self'.Valid ∧
      1 ≤ self'.capacity ∧ self'.length ≤ self'.capacity ∧
      Sample.store79.length < self'.capacity) ∧
    (∃ res self', Sample.store79.remove_entry 7 = .ok (res, self') ∧ self'.Valid ∧
      1 ≤ self'.capacity ∧ self'.length ≤ self'.capacity) :=
  ⟨by decide,
   (C17_bounds_invariant 8 Sample.store79 (by decide)).1 Sample.set11 (by decide),
   (C17_bounds_invariant 8 Sample.store79 (by decide)).2.2.2.2.1 7⟩
